import Mathlib

set_option autoImplicit false
set_option maxRecDepth 8000

/- A shallow embedding of src/bin/get_rirstats.py: the RIR statistics line
   parsers, the IPv4 range-to-CIDR decomposition performed during CSV emission
   (the stdlib ipaddress.summarize_address_range loop), and the sort/emit
   pipeline.  A Python path that terminates the run (exit(1), or an uncaught
   exception such as IndexError/AddressValueError/ValueError) is modelled as
   Except.error (); a path that logs and returns None is modelled as Option.
   Machine integers are Nat/Int. -/

/-- Characters removed by Python str.strip(). -/
def pySpace (c : Char) : Bool :=
  (c == ' ') || (c == '\t') || (c == '\n') || (c == '\r') || (c == '\x0B') || (c == '\x0C')

/-- Python str.strip(). -/
def pyStrip (l : List Char) : List Char :=
  ((l.dropWhile pySpace).reverse.dropWhile pySpace).reverse

/-- Python str.rstrip(chr) for the newline character. -/
def rstripNl (l : List Char) : List Char :=
  (l.reverse.dropWhile (fun c => c == '\n')).reverse

/-- Python str.split(sep) for a one-character separator. -/
def splitOnChar (sep : Char) : List Char → List (List Char)
  | [] => [[]]
  | c :: cs =>
    match splitOnChar sep cs with
    | [] => [[]]
    | g :: gs => if c = sep then [] :: g :: gs else (c :: g) :: gs

/-- Python str.split(sep) on Lean strings. -/
def pySplit (sep : Char) (s : String) : List String :=
  (splitOnChar sep s.data).map List.asString

/-- Python str.splitlines() for texts whose only line break is the newline
    character (a trailing newline does not yield a final empty line). -/
def pySplitlines (l : List Char) : List (List Char) :=
  if l = [] then []
  else
    let parts := splitOnChar '\n' l
    if parts.getLast? = some [] then parts.dropLast else parts

/-- Decimal value of a list of digit characters. -/
def decDigits (l : List Char) : Nat :=
  l.foldl (fun a c => a * 10 + (c.toNat - 48)) 0

/-- A nonempty all-digit token, as accepted by Python int() after stripping
    (underscores between digits, accepted by Python, are not modelled; no
    claim depends on them). -/
def natOfToken (l : List Char) : Option Nat :=
  match l with
  | [] => none
  | _ => if l.all Char.isDigit then some (decDigits l) else none

/-- Python int(str): optional surrounding whitespace, optional sign, digits.
    Raising ValueError is modelled as none. -/
def pyInt (s : String) : Option Int :=
  match pyStrip s.data with
  | '+' :: ds => (natOfToken ds).map (fun n => (n : Int))
  | '-' :: ds => (natOfToken ds).map (fun n => -(n : Int))
  | ds => (natOfToken ds).map (fun n => (n : Int))

/-- One dotted-quad octet as accepted by ipaddress.IPv4Address: one to three
    digits, no leading zero, value at most 255. -/
def octetOK (l : List Char) : Bool :=
  decide (1 ≤ l.length ∧ l.length ≤ 3 ∧ l.all Char.isDigit = true ∧
    (l.length = 1 ∨ l.headD '0' ≠ '0') ∧ decDigits l ≤ 255)

/-- ipaddress.IPv4Address(str) as an integer; AddressValueError is none. -/
def pyIPv4 (s : String) : Option Nat :=
  let parts := splitOnChar '.' s.data
  if parts.length = 4 ∧ parts.all octetOK = true then
    some (parts.foldl (fun a l => a * 256 + decDigits l) 0)
  else none

/-- Hexadecimal digit test. -/
def isHexDigitCh (c : Char) : Bool :=
  c.isDigit || (('a' ≤ c) && (c ≤ 'f')) || (('A' ≤ c) && (c ≤ 'F'))

/-- Value of one hexadecimal digit character. -/
def hexVal (c : Char) : Nat :=
  if c.isDigit then c.toNat - 48 else if 'a' ≤ c then c.toNat - 87 else c.toNat - 55

/-- Value of a list of hexadecimal digit characters. -/
def hexDigits (l : List Char) : Nat :=
  l.foldl (fun a c => a * 16 + hexVal c) 0

/-- One IPv6 group: one to four hexadecimal digits. -/
def groupOK (l : List Char) : Bool :=
  decide (1 ≤ l.length ∧ l.length ≤ 4 ∧ l.all isHexDigitCh = true)

/-- Integer value of a list of 16-bit groups. -/
def groupsVal (gs : List (List Char)) : Nat :=
  gs.foldl (fun a g => a * 65536 + hexDigits g) 0

/-- Split a character list at the first "::", if any. -/
def splitDC : List Char → Option (List Char × List Char)
  | [] => none
  | ':' :: ':' :: rest => some ([], rest)
  | c :: rest => (splitDC rest).map (fun p => (c :: p.1, p.2))

/-- ipaddress.IPv6Address(str) as an integer, modelled from the stdlib for the
    plain textual forms (eight colon-separated hexadecimal groups, with at most
    one "::" zero-compression); the embedded-IPv4 and zone-id forms are not
    modelled, no claim depends on them.  AddressValueError is none. -/
def pyIPv6 (s : String) : Option Nat :=
  let cs := s.data
  match splitDC cs with
  | none =>
    let parts := splitOnChar ':' cs
    if parts.length = 8 ∧ parts.all groupOK = true then some (groupsVal parts) else none
  | some (l, r) =>
    let lg := if l = [] then [] else splitOnChar ':' l
    let rg := if r = [] then [] else splitOnChar ':' r
    if lg.all groupOK = true ∧ rg.all groupOK = true ∧ lg.length + rg.length ≤ 7 then
      some (groupsVal (lg ++ List.replicate (8 - lg.length - rg.length) [] ++ rg))
    else none

/-- A decimal token as accepted by Python float() for the plain decimal
    grammar (optional sign, integer digits, optional fractional part); stored
    exactly as numerator over a positive power of ten.  The exponent, inf and
    nan forms of float() are not modelled; no claim depends on them. -/
structure PyDec where
  num : Int
  den : Nat
  deriving DecidableEq

/-- Core of the float() decimal grammar on a stripped character list. -/
def pyFloatCore (cs : List Char) : Option PyDec :=
  let signed : Int → Int :=
    match cs with
    | '-' :: _ => (fun n => -n)
    | _ => (fun n => n)
  let body := match cs with
    | '+' :: r => r
    | '-' :: r => r
    | r => r
  let ip := body.takeWhile Char.isDigit
  let rest := body.dropWhile Char.isDigit
  match rest with
  | [] =>
    match ip with
    | [] => none
    | _ => some ⟨signed (decDigits ip), 1⟩
  | '.' :: fr =>
    if fr.all Char.isDigit = true ∧ (ip ≠ [] ∨ fr ≠ []) then
      some ⟨signed ((decDigits ip) * 10 ^ fr.length + decDigits fr), 10 ^ fr.length⟩
    else none
  | _ => none

/-- Python float(str) restricted to the decimal grammar. -/
def pyFloatDec (s : String) : Option PyDec :=
  pyFloatCore (pyStrip s.data)

/-- A calendar date as built by datetime.date. -/
structure PyDate where
  year : Nat
  month : Nat
  day : Nat
  deriving DecidableEq

/-- Gregorian leap-year rule used by datetime.date. -/
def isLeapB (y : Nat) : Bool :=
  decide ((y % 4 = 0 ∧ y % 100 ≠ 0) ∨ y % 400 = 0)

/-- Days in a month, as validated by datetime.date. -/
def daysInMonth (y m : Nat) : Nat :=
  if m = 2 then (if isLeapB y then 29 else 28)
  else if m = 4 ∨ m = 6 ∨ m = 9 ∨ m = 11 then 30
  else 31

/-- The datetime.date(y, m, d) validity check (MINYEAR = 1, MAXYEAR = 9999). -/
def dateOKb (y m d : Nat) : Bool :=
  decide (1 ≤ y ∧ y ≤ 9999 ∧ 1 ≤ m ∧ m ≤ 12 ∧ 1 ≤ d ∧ d ≤ daysInMonth y m)

/-- Python str.isdigit(): true for the ASCII decimal digits and also for
    non-decimal Unicode digit characters; of the latter the common superscript
    digits are modelled here (the rest of the Unicode digit table is not, and
    no claim depends on it).  int() accepts only decimal digits, so a token
    that passes isdigit() while containing one of these characters makes an
    unguarded int() call raise ValueError. -/
def pyIsdigitChar (c : Char) : Bool :=
  c.isDigit || (c == '¹') || (c == '²') || (c == '³')

/-- get_date_from_yyyymmdd (src/bin/get_rirstats.py lines 77-87): a token of
    wrong length or failing str.isdigit() returns None; otherwise the token is
    sliced as yyyy mm dd by int() calls that sit OUTSIDE the try block, so a
    length-8 token of non-decimal digit characters (which str.isdigit()
    accepts) raises an uncaught ValueError, modelled as Except.error; for
    all-decimal tokens the try around datetime.date returns None on an
    invalid calendar date and the date otherwise. -/
def get_date_from_yyyymmdd (text : String) : Except Unit (Option PyDate) :=
  if text.data.length = 8 ∧ text.data.all pyIsdigitChar = true then
    if text.data.all Char.isDigit = true then
      if dateOKb (decDigits (text.data.take 4)) (decDigits ((text.data.drop 4).take 2))
          (decDigits (text.data.drop 6)) then
        .ok (some ⟨decDigits (text.data.take 4), decDigits ((text.data.drop 4).take 2),
          decDigits (text.data.drop 6)⟩)
      else .ok none
    else .error ()
  else .ok none

/-- The start field of a parsed record: the dynamic type of the Python value
    (IPv4Address, IPv6Address, or int for asn records). -/
inductive AddrStart where
  | v4 (a : Nat)
  | v6 (a : Nat)
  | asnum (n : Int)
  deriving DecidableEq

/-- A parsed detail record (the non-summary result dict of parse_record). -/
structure DetailRecord where
  registry : String
  cc : String
  rtype : String
  start : AddrStart
  value : Int
  date : Option PyDate
  status : String
  opaque_id : Option String
  deriving DecidableEq

/-- A parsed summary record (the summary result dict of parse_record). -/
structure SummaryRecord where
  registry : String
  rtype : String
  count : Int
  deriving DecidableEq

/-- The two shapes parse_record can return non-None. -/
inductive PRecord where
  | summary (s : SummaryRecord)
  | detail (d : DetailRecord)
  deriving DecidableEq

/-- The typed-field decode of the detail branch of parse_record (lines
    144-155): the discriminator fields[2] selects how fields[3] and fields[4]
    are decoded; a decode exception is fatal (Except.error). -/
def parseTyped (fields : List String) : Except Unit (Option (String × AddrStart × Int)) :=
  if fields.getD 2 ("") = "asn" then
    match pyInt (fields.getD 3 ("")), pyInt (fields.getD 4 ("")) with
    | some s, some v => .ok (some (fields.getD 2 (""), AddrStart.asnum s, v))
    | _, _ => .error ()
  else if fields.getD 2 ("") = "ipv4" then
    match pyIPv4 (fields.getD 3 ("")), pyInt (fields.getD 4 ("")) with
    | some s, some v => .ok (some (fields.getD 2 (""), AddrStart.v4 s, v))
    | _, _ => .error ()
  else if fields.getD 2 ("") = "ipv6" then
    match pyIPv6 (fields.getD 3 ("")), pyInt (fields.getD 4 ("")) with
    | some s, some v => .ok (some (fields.getD 2 (""), AddrStart.v6 s, v))
    | _, _ => .error ()
  else .ok none

/-- parse_record (lines 123-169) on the split field list.  Fewer than six
    fields: warning, returns None (.ok none).  Summary lines: a decode
    exception returns None.  Detail lines: any exception in the try block
    (bad integer, bad address, a ValueError raised by the date codec on a
    non-decimal Unicode digit token, or the IndexError reading fields[6]
    when only six fields are present) is exit(1), i.e. Except.error; the
    typed-field decode happens first, then the date, then the status read,
    matching the statement order of the source.  The final filter returns
    the record only when its type is ipv4 or ipv6. -/
def parse_record_fields (fields : List String) : Except Unit (Option PRecord) :=
  if fields.length < 6 then .ok none
  else if fields.getD 5 ("") = "summary" then
    match pyInt (fields.getD 4 ("")) with
    | none => .ok none
    | some c =>
      if fields.getD 2 ("") = "ipv4" ∨ fields.getD 2 ("") = "ipv6" then
        .ok (some (PRecord.summary ⟨fields.getD 0 (""), fields.getD 2 (""), c⟩))
      else .ok none
  else
    match parseTyped fields with
    | .error e => .error e
    | .ok t =>
      match get_date_from_yyyymmdd (fields.getD 5 ("")) with
      | .error e => .error e
      | .ok date =>
        if 7 ≤ fields.length then
          match t with
          | some (ty, st, v) =>
            if ty = "ipv4" ∨ ty = "ipv6" then
              .ok (some (PRecord.detail
                ⟨fields.getD 0 (""), fields.getD 1 (""), ty, st, v,
                 date, fields.getD 6 (""),
                 if 8 ≤ fields.length then some (fields.getD 7 ("")) else none⟩))
            else .ok none
          | none => .ok none
        else .error ()

/-- parse_record on a raw line. -/
def parse_record (row : String) : Except Unit (Option PRecord) :=
  parse_record_fields (pySplit '|' row)

/-- A parsed version record (parse_version_record's result dict). -/
structure VersionRecord where
  version : PyDec
  registry : String
  serial : Int
  records : Int
  startdate : Option PyDate
  enddate : Option PyDate
  utcoffset : Int
  deriving DecidableEq

/-- parse_version_record (lines 91-119).  The guard is modelled literally:
    exit(1) when the version field does not float-parse, or is (falsy) zero,
    or satisfies the chained comparison 3.0 <= version < 2.0 (which is never
    true), or the field count is not seven; then any exception in the body
    (a bad integer, or a ValueError raised by the date codec) is also
    exit(1), in the source's statement order: serial, records, the two
    dates, the UTC offset. -/
def parse_version_record (row : String) : Except Unit VersionRecord :=
  let fields := pySplit '|' row
  match pyFloatDec (fields.getD 0 ("")) with
  | none => .error ()
  | some v =>
    if v.num = 0 then .error ()
    else if 3 * (v.den : Int) ≤ v.num ∧ v.num < 2 * (v.den : Int) then .error ()
    else if fields.length ≠ 7 then .error ()
    else
      match pyInt (fields.getD 2 ("")), pyInt (fields.getD 3 ("")) with
      | some serial, some records =>
        match get_date_from_yyyymmdd (fields.getD 4 ("")),
              get_date_from_yyyymmdd (fields.getD 5 ("")) with
        | .ok sd, .ok ed =>
          match pyInt (fields.getD 6 ("")) with
          | some utc => .ok ⟨v, fields.getD 1 (""), serial, records, sd, ed, utc⟩
          | none => .error ()
        | _, _ => .error ()
      | _, _ => .error ()

/-- The detail-row loop of parse_stats_list (lines 203-214) over the rows
    after the version row: None rows and summary rows are skipped, detail
    records are appended in input order. -/
def parse_details : List String → Except Unit (List DetailRecord)
  | [] => .ok []
  | row :: rest =>
    match parse_record row with
    | .error e => .error e
    | .ok d =>
      match parse_details rest with
      | .error e => .error e
      | .ok ds =>
        match d with
        | some (PRecord.detail r) => .ok (r :: ds)
        | _ => .ok ds

/-- parse_stats_list (lines 197-217): the first row must parse as a version
    record (which may terminate the run); the rest are detail/summary rows. -/
def parse_stats_list (rows : List String) : Except Unit (List DetailRecord) :=
  match rows with
  | [] => .ok []
  | h :: t =>
    match parse_version_record h with
    | .error e => .error e
    | .ok _ => parse_details t

/-- The per-line filter loop of get_stats_list_from_url (lines 184-191): each
    line is stripped, then row[0] is compared with the comment character
    BEFORE the blank-line length check, so a blank or whitespace-only line
    raises IndexError (uncaught, modelled as Except.error); the len(row) == 0
    branch is unreachable for its intended input. -/
def ingestRows : List (List Char) → Except Unit (List String)
  | [] => .ok []
  | row :: rest =>
    let r := pyStrip row
    match r with
    | [] => .error ()
    | c :: _ =>
      if c = '#' then ingestRows rest
      else
        match ingestRows rest with
        | .error e => .error e
        | .ok tail => .ok ((rstripNl r).asString :: tail)

/-- The ingestion of one downloaded text (the r.text.splitlines() loop of
    get_stats_list_from_url); network retrieval itself is out of scope. -/
def get_stats_list (text : String) : Except Unit (List String) :=
  ingestRows (pySplitlines text.data)

/-- _count_righthand_zero_bits(number, bits) from the stdlib ipaddress module:
    the number of trailing zero bits, capped at bits (and equal to bits for
    zero).  The fuel argument is the cap. -/
def tzAux : Nat → Nat → Nat
  | 0, _ => 0
  | f + 1, n => if n % 2 = 1 then 0 else tzAux f (n / 2) + 1

/-- Python int.bit_length() computed with fuel (exact for n < 2 ^ fuel). -/
def bitLen : Nat → Nat → Nat
  | 0, _ => 0
  | f + 1, n => if n = 0 then 0 else bitLen f (n / 2) + 1

/-- The nbits computed on each iteration of summarize_address_range:
    min(trailing zeros of first capped at the address width,
        bit_length(last - first + 1) - 1). -/
def pyNbits (w first last : Nat) : Nat :=
  min (tzAux w first) (bitLen (w + 1) (last - first + 1) - 1)

/-- The loop of ipaddress.summarize_address_range on integer addresses, for
    width w: while first <= last, emit the network (first, w - nbits), advance
    first by 2 ^ nbits, and break early when the new first - 1 is the all-ones
    address.  One unit of fuel is consumed per emitted block. -/
def summarizeAux (w : Nat) : Nat → Nat → Nat → List (Nat × Nat)
  | 0, _, _ => []
  | f + 1, first, last =>
    if first ≤ last then
      let nb := pyNbits w first last
      (first, w - nb) ::
        (if first + 2 ^ nb - 1 = 2 ^ w - 1 then []
         else summarizeAux w f (first + 2 ^ nb) last)
    else []

/-- ipaddress.summarize_address_range(first, last) for integer addresses of
    width w with first <= last; fuel last + 1 - first bounds the number of
    emitted blocks since first advances by at least one per block. -/
def summarize_address_range (w first last : Nat) : List (Nat × Nat) :=
  summarizeAux w (last + 1 - first) first last

/-- IPv4Address.__add__ / IPv6Address.__add__: integer addition re-validated
    against the address space; AddressValueError is Except.error. -/
def addrAdd (w : Nat) (a : Nat) (d : Int) : Except Unit Nat :=
  let v : Int := (a : Int) + d
  if 0 ≤ v ∧ v < 2 ^ w then .ok v.toNat else .error ()

/-- Lines 231-234 of write_intermediate_stats_to_csv for one record: compute
    last = first + (value - 1) (which may raise AddressValueError) and run
    summarize_address_range (which raises ValueError when last < first); both
    exceptions are uncaught and abort the run. -/
def rangeBlocks (w : Nat) (first : Nat) (value : Int) : Except Unit (List (Nat × Nat)) :=
  match addrAdd w first (value - 1) with
  | .error e => .error e
  | .ok last => if last < first then .error () else .ok (summarize_address_range w first last)

/-- Membership of an integer address in the block (addr, plen) of width w. -/
def blockMem (w : Nat) (b : Nat × Nat) (a : Nat) : Prop :=
  b.1 ≤ a ∧ a < b.1 + 2 ^ (w - b.2)

/-- A well-formed CIDR block of width w: prefix length at most w and network
    address aligned to the block size. -/
def validBlock (w : Nat) (b : Nat × Nat) : Prop :=
  b.2 ≤ w ∧ 2 ^ (w - b.2) ∣ b.1

/-- The exact-cover invariant relating a block list to the interval
    [first, last]: blocks are adjacent aligned intervals starting at first and
    ending exactly at last. -/
def chainBlocks (w : Nat) : Nat → Nat → List (Nat × Nat) → Prop
  | first, last, [] => first = last + 1
  | first, last, (a, p) :: rest =>
    a = first ∧ p ≤ w ∧ 2 ^ (w - p) ∣ a ∧ first + 2 ^ (w - p) - 1 ≤ last ∧
    chainBlocks w (first + 2 ^ (w - p)) last rest

/-- Digit character for a value below ten. -/
def digitChar (n : Nat) : Char := Char.ofNat (48 + n)

/-- Decimal digits of a natural number, with fuel. -/
def natStrAux : Nat → Nat → List Char
  | 0, _ => []
  | f + 1, n => if n < 10 then [digitChar n] else natStrAux f (n / 10) ++ [digitChar (n % 10)]

/-- Python str(int) for a natural number. -/
def natStr (n : Nat) : String := (natStrAux (n + 1) n).asString

/-- Python str(int). -/
def intStr (i : Int) : String :=
  if i < 0 then "-" ++ natStr i.natAbs else natStr i.toNat

/-- Left-pad a string with zeros to width k. -/
def padZero (k : Nat) (s : String) : String :=
  (List.replicate (k - s.length) '0').asString ++ s

/-- str(datetime.date): ISO format YYYY-MM-DD. -/
def dateStr (d : PyDate) : String :=
  padZero 4 (natStr d.year) ++ "-" ++ padZero 2 (natStr d.month) ++ "-" ++ padZero 2 (natStr d.day)

/-- str(IPv4Address): dotted quad. -/
def v4AddrStr (a : Nat) : String :=
  natStr (a / 16777216 % 256) ++ "." ++ natStr (a / 65536 % 256) ++ "." ++
  natStr (a / 256 % 256) ++ "." ++ natStr (a % 256)

/-- Hexadecimal digit character (lowercase). -/
def hexChar (n : Nat) : Char := if n < 10 then digitChar n else Char.ofNat (87 + n)

/-- Hexadecimal digits of a natural number, with fuel. -/
def hexStrAux : Nat → Nat → List Char
  | 0, _ => []
  | f + 1, n => if n < 16 then [hexChar n] else hexStrAux f (n / 16) ++ [hexChar (n % 16)]

/-- Lowercase hexadecimal form of a natural number. -/
def hexStr (n : Nat) : String := (hexStrAux (n + 1) n).asString

/-- str(IPv6Address), modelled from the stdlib as the eight colon-separated
    hexadecimal groups; the stdlib additionally compresses the longest zero
    run with "::", which no claim depends on. -/
def v6AddrStr (a : Nat) : String :=
  String.intercalate (":") ((List.range 8).map (fun i => hexStr (a / 2 ^ (16 * (7 - i)) % 65536)))

/-- str() of a start field, by its dynamic type. -/
def startStr : AddrStart → String
  | .v4 a => v4AddrStr a
  | .v6 a => v6AddrStr a
  | .asnum n => intStr n

/-- The trailing five CSV fields shared by both row shapes: registry, country,
    date (empty when falsy), status, opaque id (empty when falsy). -/
def tailFields (r : DetailRecord) : String :=
  r.registry ++ "," ++ r.cc ++ "," ++
  (match r.date with | some d => dateStr d | none => "") ++ "," ++
  r.status ++ "," ++
  (match r.opaque_id with | some s => s | none => "")

/-- The rows written for one record by the loop body of
    write_intermediate_stats_to_csv (lines 229-251), without the final
    newline characters.  The ipv4 branch decomposes the range into CIDR
    blocks; the ipv6 branch writes one row; other types write nothing.  The
    ipv4 branch on an asn start would raise TypeError inside
    summarize_address_range (uncaught). -/
def recordLines (r : DetailRecord) : Except Unit (List String) :=
  if r.rtype = "ipv4" then
    match r.start with
    | .v4 a =>
      match rangeBlocks 32 a r.value with
      | .error e => .error e
      | .ok bs => .ok (bs.map (fun b =>
          r.rtype ++ ("," ++ (v4AddrStr b.1 ++ ("/" ++ (natStr b.2 ++ ("," ++ tailFields r)))))))
    | .v6 a =>
      match rangeBlocks 128 a r.value with
      | .error e => .error e
      | .ok bs => .ok (bs.map (fun b =>
          r.rtype ++ ("," ++ (v6AddrStr b.1 ++ ("/" ++ (natStr b.2 ++ ("," ++ tailFields r)))))))
    | .asnum _ => .error ()
  else if r.rtype = "ipv6" then
    .ok [r.rtype ++ ("," ++ (startStr r.start ++ ("/" ++ (intStr r.value ++ ("," ++ tailFields r)))))]
  else .ok []

/-- Python's dynamic-type test type(i["start"]) == ipaddress.IPv4Address. -/
def isV4b (r : DetailRecord) : Bool :=
  match r.start with | .v4 _ => true | _ => false

/-- Python's dynamic-type test type(i["start"]) == ipaddress.IPv6Address. -/
def isV6b (r : DetailRecord) : Bool :=
  match r.start with | .v6 _ => true | _ => false

/-- The numeric sort key lambda k: k["start"] (address comparison is integer
    comparison within one address family). -/
def startKey (r : DetailRecord) : Nat :=
  match r.start with | .v4 a => a | .v6 a => a | .asnum n => n.toNat

/-- One step of a stable ascending insertion by key: the new element comes
    from earlier in the original list, so it is placed before equal keys. -/
def keyInsert {α : Type} (key : α → Nat) (x : α) : List α → List α
  | [] => [x]
  | y :: ys => if key x ≤ key y then x :: y :: ys else y :: keyInsert key x ys

/-- A stable ascending sort by key, extensionally equal to Python sorted with
    that key. -/
def keySort {α : Type} (key : α → Nat) : List α → List α
  | [] => []
  | x :: xs => keyInsert key x (keySort key xs)

/-- Lines 225-228 of write_intermediate_stats_to_csv: the IPv4-start records
    sorted by start, followed by the IPv6-start records sorted by start. -/
def emitOrder (ranges : List DetailRecord) : List DetailRecord :=
  keySort startKey (ranges.filter isV4b) ++ keySort startKey (ranges.filter isV6b)

/-- The body rows of the CSV, in emission order. -/
def emitLines : List DetailRecord → Except Unit (List String)
  | [] => .ok []
  | r :: rs =>
    match recordLines r with
    | .error e => .error e
    | .ok a =>
      match emitLines rs with
      | .error e => .error e
      | .ok b => .ok (a ++ b)

/-- The exact header row written at line 224. -/
def csvHeader : String := "type,subnet,registry,country,date,status,reg_id"

/-- write_intermediate_stats_to_csv (lines 221-252) as the list of lines
    written to stdout (without newline characters). -/
def write_intermediate_stats_to_csv (ranges : List DetailRecord) : Except Unit (List String) :=
  match emitLines (emitOrder ranges) with
  | .error e => .error e
  | .ok body => .ok (csvHeader :: body)

/-- The two-sided position invariant of the greedy loop: at the current
    position, the distance back to the base of the original interval or the
    remaining length is below the alignment of the current position.  It
    forces every CIDR block of a cover that contains cur and stays inside
    [base, last] to start exactly at cur. -/
def GreedyInv (w base cur last : Nat) : Prop :=
  cur - base < 2 ^ tzAux w cur ∨ last + 1 - cur < 2 ^ tzAux w cur

/-- Specification-side reading of the date-token contract: the token has
    length eight, is entirely numeric, and its year/month/day digit groups
    form a valid calendar date. -/
def validDateToken (s : String) : Prop :=
  s.data.length = 8 ∧ (∀ c ∈ s.data, c.isDigit = true) ∧
  dateOKb (decDigits (s.data.take 4)) (decDigits ((s.data.drop 4).take 2))
    (decDigits (s.data.drop 6)) = true

/-- The calendar date named by a valid date token. -/
def tokenDate (s : String) : PyDate :=
  ⟨decDigits (s.data.take 4), decDigits ((s.data.drop 4).take 2), decDigits (s.data.drop 6)⟩

/-- A record of the shape the aggregator actually holds, with an emittable
    range: the dynamic type of start matches the type discriminator, and for
    ipv4 the count is at least one and the range stays inside the address
    space (otherwise the emission loop raises). -/
def recWFb (r : DetailRecord) : Bool :=
  match r.start with
  | .v4 a => decide (r.rtype = "ipv4" ∧ 1 ≤ r.value ∧ (a : Int) + r.value ≤ 2 ^ 32)
  | .v6 _ => decide (r.rtype = "ipv6")
  | .asnum _ => false

/-- The record-order relation claimed for the emitted CSV: IPv4-family
    records precede IPv6-family records, and within one family the numeric
    starting addresses are nondecreasing. -/
def famOrder (a b : DetailRecord) : Prop :=
  (isV4b a = true ∧ isV6b b = true) ∨
  (isV4b a = true ∧ isV4b b = true ∧ startKey a ≤ startKey b) ∨
  (isV6b a = true ∧ isV6b b = true ∧ startKey a ≤ startKey b)

theorem tzAux_le (f n : Nat) : tzAux f n ≤ f := by
  induction f generalizing n with
  | zero => simp [tzAux]
  | succ f ih =>
    simp only [tzAux]
    split
    · omega
    · have := ih (n / 2); omega

theorem tzAux_zero (f : Nat) : tzAux f 0 = f := by
  induction f with
  | zero => rfl
  | succ f ih => simp [tzAux, ih]

theorem double_pow_eq {t c n : Nat} (h2 : n % 2 = 0) (hc : n / 2 = 2 ^ t * c) :
    n = 2 ^ (t + 1) * c := by
  calc n = 2 * (n / 2) := by omega
    _ = 2 * (2 ^ t * c) := by rw [hc]
    _ = 2 ^ (t + 1) * c := by rw [pow_succ]; ring

theorem halve_pow {t c n : Nat} (hc : n = 2 ^ (t + 1) * c) : n / 2 = 2 ^ t * c := by
  have h1 : n = 2 * (2 ^ t * c) := by rw [hc, pow_succ]; ring
  obtain ⟨Y, hY⟩ : ∃ Y, 2 ^ t * c = Y := ⟨_, rfl⟩
  rw [hY]
  rw [hY] at h1
  omega

theorem pow_tzAux_dvd (f n : Nat) : 2 ^ tzAux f n ∣ n := by
  induction f generalizing n with
  | zero => simp [tzAux]
  | succ f ih =>
    simp only [tzAux]
    split
    · simp
    · rename_i h
      obtain ⟨c, hc⟩ := ih (n / 2)
      exact ⟨c, double_pow_eq (by omega) hc⟩

theorem not_dvd_pow_succ_tzAux (f : Nat) : ∀ n : Nat, n ≠ 0 → n < 2 ^ f →
    ¬ 2 ^ (tzAux f n + 1) ∣ n := by
  induction f with
  | zero => intro n hn hlt; simp at hlt; omega
  | succ f ih =>
    intro n hn hlt
    simp only [tzAux]
    split
    · rename_i h
      intro hd
      obtain ⟨c, hc⟩ := hd
      simp [pow_one] at hc
      omega
    · rename_i h
      have h2 : n % 2 = 0 := by omega
      have hhalf : n / 2 ≠ 0 := by omega
      have hlt2 : n / 2 < 2 ^ f := by rw [pow_succ] at hlt; omega
      intro hd
      apply ih (n / 2) hhalf hlt2
      obtain ⟨c, hc⟩ := hd
      exact ⟨c, halve_pow hc⟩

theorem tzAux_ge_of_dvd (f : Nat) : ∀ n k : Nat, k ≤ f → 2 ^ k ∣ n → k ≤ tzAux f n := by
  induction f with
  | zero => intro n k hk _; omega
  | succ f ih =>
    intro n k hk hd
    cases k with
    | zero => omega
    | succ k =>
      obtain ⟨c, hc⟩ := hd
      have h2 : n % 2 = 0 := by
        have : n = 2 * (2 ^ k * c) := by rw [hc, pow_succ]; ring
        omega
      have hhalf : n / 2 = 2 ^ k * c := by
        have : n = 2 * (2 ^ k * c) := by rw [hc, pow_succ]; ring
        omega
      simp only [tzAux, if_neg (by omega : ¬ n % 2 = 1)]
      have := ih (n / 2) k (by omega) ⟨c, hhalf⟩
      omega

theorem tzAux_eq_of_dvd_not_dvd (f : Nat) : ∀ n k : Nat, k ≤ f → 2 ^ k ∣ n →
    ¬ 2 ^ (k + 1) ∣ n → tzAux f n = k := by
  induction f with
  | zero => intro n k hk _ _; simp [tzAux]; omega
  | succ f ih =>
    intro n k hk hd hnd
    cases k with
    | zero =>
      have h2 : ¬ 2 ∣ n := by simpa using hnd
      have : n % 2 = 1 := by omega
      simp [tzAux, this]
    | succ k =>
      obtain ⟨c, hc⟩ := hd
      have hn2 : n = 2 * (2 ^ k * c) := by rw [hc, pow_succ]; ring
      have h2 : n % 2 = 0 := by omega
      have hhalf : n / 2 = 2 ^ k * c := by omega
      have hnd2 : ¬ 2 ^ (k + 1) ∣ n / 2 := by
        intro hdd
        obtain ⟨d, hdd⟩ := hdd
        exact hnd ⟨d, double_pow_eq h2 hdd⟩
      simp only [tzAux, if_neg (by omega : ¬ n % 2 = 1)]
      rw [ih (n / 2) k (by omega) ⟨c, hhalf⟩ hnd2]

theorem mod_tzAux_succ (f n : Nat) (hn : n ≠ 0) (hlt : n < 2 ^ f) :
    n % 2 ^ (tzAux f n + 1) = 2 ^ tzAux f n := by
  have hd := pow_tzAux_dvd f n
  have hnd := not_dvd_pow_succ_tzAux f n hn hlt
  revert hd hnd
  generalize tzAux f n = t
  intro hd hnd
  obtain ⟨c, hc⟩ := hd
  have hodd : c % 2 = 1 := by
    rcases Nat.mod_two_eq_zero_or_one c with h | h
    · exfalso
      apply hnd
      refine ⟨c / 2, ?_⟩
      have hcc : c = 2 * (c / 2) := by omega
      rw [hcc] at hc
      calc n = 2 ^ t * (2 * (c / 2)) := hc
        _ = 2 ^ (t + 1) * (c / 2) := by rw [pow_succ]; ring
    · exact h
  rw [hc, pow_succ, Nat.mul_mod_mul_left, hodd, mul_one]

theorem bitLen_zero (f : Nat) : bitLen f 0 = 0 := by
  cases f <;> simp [bitLen]

theorem lt_two_pow_bitLen (f : Nat) : ∀ n : Nat, n < 2 ^ f → n < 2 ^ bitLen f n := by
  induction f with
  | zero => intro n h; simpa [bitLen] using h
  | succ f ih =>
    intro n h
    simp only [bitLen]
    split
    · rename_i h0; simp [h0]
    · rename_i h0
      have hlt2 : n / 2 < 2 ^ f := by rw [pow_succ] at h; omega
      have := ih (n / 2) hlt2
      rw [pow_succ]
      omega

theorem two_pow_bitLen_pred_le (f : Nat) : ∀ n : Nat, n ≠ 0 → 2 ^ (bitLen f n - 1) ≤ n := by
  induction f with
  | zero => intro n hn; simp [bitLen]; omega
  | succ f ih =>
    intro n hn
    simp only [bitLen, if_neg hn]
    cases hb : bitLen f (n / 2) with
    | zero => simpa using Nat.one_le_iff_ne_zero.mpr hn
    | succ b =>
      have hhalf : n / 2 ≠ 0 := by
        intro h0
        rw [h0, bitLen_zero] at hb
        exact Nat.succ_ne_zero b hb.symm
      have := ih (n / 2) hhalf
      rw [hb] at this
      simp only [Nat.succ_sub_one] at this ⊢
      rw [pow_succ]
      omega

theorem bitLen_two_pow (f : Nat) : ∀ k : Nat, k < f → bitLen f (2 ^ k) = k + 1 := by
  induction f with
  | zero => intro k hk; omega
  | succ f ih =>
    intro k hk
    have hne : (2 : Nat) ^ k ≠ 0 := (pow_pos (by omega : (0 : Nat) < 2) k).ne'
    simp only [bitLen, if_neg hne]
    cases k with
    | zero => simp [bitLen_zero]
    | succ k =>
      have hdiv : 2 ^ (k + 1) / 2 = 2 ^ k := by
        rw [pow_succ]
        exact Nat.mul_div_cancel _ (by omega)
      rw [hdiv, ih k (by omega)]

theorem pyNbits_le_w (w first last : Nat) : pyNbits w first last ≤ w :=
  le_trans (min_le_left _ _) (tzAux_le w first)

theorem pow_pyNbits_dvd (w first last : Nat) : 2 ^ pyNbits w first last ∣ first :=
  dvd_trans (pow_dvd_pow 2 (min_le_left _ _)) (pow_tzAux_dvd w first)

theorem two_pow_pyNbits_le_len (w first last : Nat) (hfl : first ≤ last) (hlw : last < 2 ^ w) :
    2 ^ pyNbits w first last ≤ last - first + 1 := by
  have hne : last - first + 1 ≠ 0 := by omega
  have hle : 2 ^ (bitLen (w + 1) (last - first + 1) - 1) ≤ last - first + 1 :=
    two_pow_bitLen_pred_le (w + 1) _ hne
  exact le_trans (Nat.pow_le_pow_right (by omega) (min_le_right _ _)) hle

theorem summarizeAux_nil (w f first last : Nat) (h : last < first) :
    summarizeAux w f first last = [] := by
  cases f with
  | zero => rfl
  | succ f => simp [summarizeAux, Nat.not_le.mpr h]

theorem chainBlocks_summarizeAux (w : Nat) : ∀ f first last : Nat, last < 2 ^ w →
    first ≤ last → last + 1 - first ≤ f →
    chainBlocks w first last (summarizeAux w f first last) := by
  intro f
  induction f with
  | zero => intro first last _ hfl hfuel; omega
  | succ f ih =>
    intro first last hlw hfl hfuel
    simp only [summarizeAux, if_pos hfl]
    have hnbw : pyNbits w first last ≤ w := pyNbits_le_w w first last
    have hdvd : 2 ^ pyNbits w first last ∣ first := pow_pyNbits_dvd w first last
    have hlen : 2 ^ pyNbits w first last ≤ last - first + 1 :=
      two_pow_pyNbits_le_len w first last hfl hlw
    have hpos : 0 < 2 ^ pyNbits w first last := pow_pos (by omega) _
    have hsub : w - (w - pyNbits w first last) = pyNbits w first last :=
      Nat.sub_sub_self hnbw
    simp only [chainBlocks, hsub]
    refine ⟨trivial, Nat.sub_le _ _, hdvd, by omega, ?_⟩
    split
    · rename_i hbreak
      have hlast : last = 2 ^ w - 1 := by
        have h2 : 0 < 2 ^ w := pow_pos (by omega) _
        omega
      simp only [chainBlocks]
      omega
    · rename_i hbreak
      by_cases hnext : first + 2 ^ pyNbits w first last ≤ last
      · exact ih (first + 2 ^ pyNbits w first last) last hlw hnext (by omega)
      · have hend : first + 2 ^ pyNbits w first last = last + 1 := by omega
        rw [summarizeAux_nil w f _ last (by omega)]
        simp only [chainBlocks]
        omega

theorem chainBlocks_mem_iff (w : Nat) : ∀ (bs : List (Nat × Nat)) (first last : Nat),
    chainBlocks w first last bs →
    ∀ a : Nat, (∃ b ∈ bs, blockMem w b a) ↔ (first ≤ a ∧ a ≤ last) := by
  intro bs
  induction bs with
  | nil =>
    intro first last hch a
    simp only [chainBlocks] at hch
    simp
    omega
  | cons b rest ih =>
    intro first last hch a
    obtain ⟨b1, b2⟩ := b
    simp only [chainBlocks] at hch
    obtain ⟨hstart, hplew, hdvd, hend, htail⟩ := hch
    have hrest := ih (first + 2 ^ (w - b2)) last htail a
    have hpos : 0 < 2 ^ (w - b2) := pow_pos (by omega) _
    constructor
    · intro hmem
      obtain ⟨c, hc, hcm⟩ := hmem
      rcases List.mem_cons.mp hc with hc1 | hc2
      · obtain ⟨hm1, hm2⟩ := hcm
        rw [hc1] at hm2 hm1
        simp only at hm1 hm2
        subst hstart
        omega
      · have := hrest.mp ⟨c, hc2, hcm⟩
        omega
    · intro hin
      by_cases hsplit : a < first + 2 ^ (w - b2)
      · refine ⟨(b1, b2), List.mem_cons_self _ _, ?_, ?_⟩
        · simp only []
          omega
        · simp only []
          omega
      · obtain ⟨c, hc, hcm⟩ := hrest.mpr (by omega)
        exact ⟨c, List.mem_cons_of_mem _ hc, hcm⟩

theorem chainBlocks_start_le (w : Nat) : ∀ (bs : List (Nat × Nat)) (first last : Nat),
    chainBlocks w first last bs → ∀ b ∈ bs, first ≤ b.1 := by
  intro bs
  induction bs with
  | nil => intro first last _ b hb; cases hb
  | cons c rest ih =>
    intro first last hch b hb
    obtain ⟨c1, c2⟩ := c
    simp only [chainBlocks] at hch
    obtain ⟨hstart, _, _, _, htail⟩ := hch
    rcases List.mem_cons.mp hb with hb1 | hb2
    · rw [hb1, hstart]
    · have := ih (first + 2 ^ (w - c2)) last htail b hb2
      have hpos : 0 < 2 ^ (w - c2) := pow_pos (by omega) _
      omega

theorem chainBlocks_pairwise (w : Nat) : ∀ (bs : List (Nat × Nat)) (first last : Nat),
    chainBlocks w first last bs →
    List.Pairwise (fun b c : Nat × Nat => b.1 + 2 ^ (w - b.2) ≤ c.1) bs := by
  intro bs
  induction bs with
  | nil => intro _ _ _; exact List.Pairwise.nil
  | cons b rest ih =>
    intro first last hch
    obtain ⟨b1, b2⟩ := b
    simp only [chainBlocks] at hch
    obtain ⟨hstart, _, _, _, htail⟩ := hch
    refine List.Pairwise.cons ?_ (ih _ last htail)
    intro c hc
    have := chainBlocks_start_le w rest _ last htail c hc
    subst hstart
    simpa using this

theorem bitLen_pos (f n : Nat) (hn : n ≠ 0) : 1 ≤ bitLen (f + 1) n := by
  simp [bitLen, hn]

theorem inv_init (w base last : Nat) : GreedyInv w base base last := by
  unfold GreedyInv
  left
  have := pow_pos (by omega : (0 : Nat) < 2) (tzAux w base)
  omega

theorem mod_sub_of_dvd {S c cur : Nat} (hpos : 0 < S) (hdvd : S ∣ c) (hm1 : c ≤ cur)
    (hlt : cur - c < S) : cur % S = cur - c := by
  have h0 : c % S = 0 := by
    obtain ⟨q, hq⟩ := hdvd
    rw [hq]
    exact Nat.mul_mod_right S q
  calc cur % S = ((cur - c) + c) % S := by rw [Nat.sub_add_cancel hm1]
    _ = ((cur - c) % S + c % S) % S := Nat.add_mod _ _ _
    _ = ((cur - c) % S) % S := by rw [h0, add_zero]
    _ = (cur - c) % S := Nat.mod_mod_of_dvd _ dvd_rfl
    _ = cur - c := Nat.mod_eq_of_lt hlt

theorem cover_block_start (w base cur last c p : Nat)
    (hlw : last < 2 ^ w) (hcur : cur ≤ last) (hbase : base ≤ cur)
    (hinv : GreedyInv w base cur last)
    (hplew : p ≤ w) (hdvd : 2 ^ (w - p) ∣ c)
    (hcb : base ≤ c) (hce : c + 2 ^ (w - p) - 1 ≤ last)
    (hm1 : c ≤ cur) (hm2 : cur < c + 2 ^ (w - p)) :
    c = cur ∧ w - p ≤ pyNbits w cur last := by
  have hSpos : 0 < 2 ^ (w - p) := pow_pos (by omega) _
  have hcw : cur < 2 ^ w := by omega
  have hceq : c = cur := by
    by_contra hne
    have hclt : c < cur := lt_of_le_of_ne hm1 hne
    have hcur0 : cur ≠ 0 := by omega
    have hTpos : 0 < 2 ^ tzAux w cur := pow_pos (by omega) _
    have hTdvd : 2 ^ tzAux w cur ∣ cur := pow_tzAux_dvd w cur
    have hTmod : cur % 2 ^ (tzAux w cur + 1) = 2 ^ tzAux w cur :=
      mod_tzAux_succ w cur hcur0 hcw
    have hmodc : cur % 2 ^ (w - p) = cur - c := mod_sub_of_dvd hSpos hdvd hm1 (by omega)
    have hnsd : ¬ 2 ^ (w - p) ∣ cur := by
      intro hdd
      obtain ⟨q, hq⟩ := hdd
      have h0 : cur % 2 ^ (w - p) = 0 := by rw [hq]; exact Nat.mul_mod_right _ _
      omega
    have hts : tzAux w cur + 1 ≤ w - p := by
      by_contra hts
      exact hnsd (dvd_trans (pow_dvd_pow 2 (by omega)) hTdvd)
    have hMdvdS : (2 : Nat) ^ (tzAux w cur + 1) ∣ 2 ^ (w - p) := pow_dvd_pow 2 hts
    have hMc : (2 : Nat) ^ (tzAux w cur + 1) ∣ c := dvd_trans hMdvdS hdvd
    have hMpos : 0 < 2 ^ (tzAux w cur + 1) := pow_pos (by omega) _
    have hM2 : 2 ^ (tzAux w cur + 1) = 2 * 2 ^ tzAux w cur := by rw [pow_succ]; ring
    have hdm : (cur - c) % 2 ^ (tzAux w cur + 1) = 2 ^ tzAux w cur := by
      have h0 : c % 2 ^ (tzAux w cur + 1) = 0 := by
        obtain ⟨q, hq⟩ := hMc
        rw [hq]; exact Nat.mul_mod_right _ _
      calc (cur - c) % 2 ^ (tzAux w cur + 1)
          = ((cur - c) % 2 ^ (tzAux w cur + 1) + c % 2 ^ (tzAux w cur + 1)) %
              2 ^ (tzAux w cur + 1) := by
            rw [h0, add_zero, Nat.mod_mod_of_dvd _ dvd_rfl]
        _ = ((cur - c) + c) % 2 ^ (tzAux w cur + 1) := (Nat.add_mod _ _ _).symm
        _ = cur % 2 ^ (tzAux w cur + 1) := by rw [Nat.sub_add_cancel hm1]
        _ = 2 ^ tzAux w cur := hTmod
    have hd_ge : 2 ^ tzAux w cur ≤ cur - c := by
      have := Nat.mod_le (cur - c) (2 ^ (tzAux w cur + 1))
      omega
    have he_ge : 2 ^ tzAux w cur ≤ c + 2 ^ (w - p) - cur := by
      have h0e : (c + 2 ^ (w - p)) % 2 ^ (tzAux w cur + 1) = 0 := by
        obtain ⟨q1, hq1⟩ := hMc
        obtain ⟨q2, hq2⟩ := hMdvdS
        rw [hq1, hq2, ← mul_add]
        exact Nat.mul_mod_right _ _
      have hsum : cur + (c + 2 ^ (w - p) - cur) = c + 2 ^ (w - p) := by omega
      have hmods := Nat.add_mod cur (c + 2 ^ (w - p) - cur) (2 ^ (tzAux w cur + 1))
      rw [hsum, hTmod] at hmods
      have hx : (2 ^ tzAux w cur +
          (c + 2 ^ (w - p) - cur) % 2 ^ (tzAux w cur + 1)) % 2 ^ (tzAux w cur + 1) = 0 := by
        omega
      obtain ⟨k, hk⟩ := Nat.dvd_of_mod_eq_zero hx
      have hxlt : (c + 2 ^ (w - p) - cur) % 2 ^ (tzAux w cur + 1) < 2 ^ (tzAux w cur + 1) :=
        Nat.mod_lt _ hMpos
      have hml := Nat.mod_le (c + 2 ^ (w - p) - cur) (2 ^ (tzAux w cur + 1))
      rcases k with _ | _ | k
      · omega
      · omega
      · have hge : 2 ^ (tzAux w cur + 1) * 2 ≤ 2 ^ (tzAux w cur + 1) * (k + 1 + 1) :=
          Nat.mul_le_mul_left _ (by omega)
        omega
    rcases hinv with hl | hr
    · omega
    · omega
  subst hceq
  refine ⟨rfl, ?_⟩
  have hbound : 2 ^ (w - p) ≤ last - c + 1 := by omega
  have h1 : w - p ≤ tzAux w c := by
    rcases Nat.eq_zero_or_pos c with hc0 | hcpos
    · rw [hc0, tzAux_zero]; omega
    · by_contra hgt
      exact not_dvd_pow_succ_tzAux w c (by omega) hcw
        (dvd_trans (pow_dvd_pow 2 (by omega)) hdvd)
  have hlen_lt : last - c + 1 < 2 ^ (w + 1) := by
    have h2w : (2 : Nat) ^ w < 2 ^ (w + 1) := by
      have := pow_pos (by omega : (0 : Nat) < 2) w
      rw [pow_succ]; omega
    omega
  have h2 : w - p < bitLen (w + 1) (last - c + 1) := by
    by_contra hh
    have hle2 : 2 ^ bitLen (w + 1) (last - c + 1) ≤ 2 ^ (w - p) :=
      Nat.pow_le_pow_right (by omega) (by omega)
    have := lt_two_pow_bitLen (w + 1) (last - c + 1) hlen_lt
    omega
  unfold pyNbits
  exact le_min h1 (by omega)

theorem inv_step (w base cur last : Nat) (hlw : last < 2 ^ w) (hfl : cur ≤ last)
    (hbase : base ≤ cur) (hinv : GreedyInv w base cur last)
    (hnext : cur + 2 ^ pyNbits w cur last ≤ last) :
    GreedyInv w base (cur + 2 ^ pyNbits w cur last) last := by
  have hlen0 : last - cur + 1 ≠ 0 := by omega
  have hlen_lt : last - cur + 1 < 2 ^ (w + 1) := by
    have h2w : (2 : Nat) ^ w < 2 ^ (w + 1) := by
      have := pow_pos (by omega : (0 : Nat) < 2) w
      rw [pow_succ]; omega
    omega
  have hblpos : 1 ≤ bitLen (w + 1) (last - cur + 1) := bitLen_pos w _ hlen0
  by_cases hreg : tzAux w cur ≤ bitLen (w + 1) (last - cur + 1) - 1
  · -- alignment-bound regime: nbits is the trailing-zero count
    have hnbt : pyNbits w cur last = tzAux w cur := min_eq_left hreg
    rw [hnbt] at hnext ⊢
    have h2t_len : 2 ^ tzAux w cur ≤ last - cur + 1 :=
      le_trans (Nat.pow_le_pow_right (by omega) hreg)
        (two_pow_bitLen_pred_le (w + 1) _ hlen0)
    have hl : cur - base < 2 ^ tzAux w cur := by
      rcases hinv with hl | hr
      · exact hl
      · omega
    have hcur0 : cur ≠ 0 := by
      intro hc0
      rw [hc0, tzAux_zero] at hnext
      have h1 : last + 1 ≤ 2 ^ w := by omega
      omega
    have htw : tzAux w cur < w := by
      have hTdvd : 2 ^ tzAux w cur ∣ cur := pow_tzAux_dvd w cur
      have hTle : 2 ^ tzAux w cur ≤ cur := Nat.le_of_dvd (by omega) hTdvd
      have hcw : cur < 2 ^ w := by omega
      by_contra hh
      have : (2 : Nat) ^ w ≤ 2 ^ tzAux w cur := Nat.pow_le_pow_right (by omega) (by omega)
      omega
    have hTmod : cur % 2 ^ (tzAux w cur + 1) = 2 ^ tzAux w cur :=
      mod_tzAux_succ w cur hcur0 (by omega)
    have hM2 : 2 ^ (tzAux w cur + 1) = 2 * 2 ^ tzAux w cur := by rw [pow_succ]; ring
    have hdvd2 : 2 ^ (tzAux w cur + 1) ∣ cur + 2 ^ tzAux w cur := by
      have hdm := Nat.div_add_mod cur (2 ^ (tzAux w cur + 1))
      rw [hTmod] at hdm
      refine ⟨cur / 2 ^ (tzAux w cur + 1) + 1, ?_⟩
      have hexp : 2 ^ (tzAux w cur + 1) * (cur / 2 ^ (tzAux w cur + 1) + 1) =
          2 ^ (tzAux w cur + 1) * (cur / 2 ^ (tzAux w cur + 1)) + 2 ^ (tzAux w cur + 1) := by
        ring
      omega
    have htz2 : tzAux w cur + 1 ≤ tzAux w (cur + 2 ^ tzAux w cur) :=
      tzAux_ge_of_dvd w _ _ (by omega) hdvd2
    have hmono : 2 ^ (tzAux w cur + 1) ≤ 2 ^ tzAux w (cur + 2 ^ tzAux w cur) :=
      Nat.pow_le_pow_right (by omega) htz2
    left
    omega
  · -- length-bound regime: nbits is bit_length(len) - 1
    have hgt : bitLen (w + 1) (last - cur + 1) - 1 < tzAux w cur := by omega
    have hnbe : pyNbits w cur last = bitLen (w + 1) (last - cur + 1) - 1 :=
      min_eq_right (by omega)
    have hlen_ub : last - cur + 1 < 2 ^ bitLen (w + 1) (last - cur + 1) :=
      lt_two_pow_bitLen (w + 1) _ hlen_lt
    obtain ⟨NB, hNB⟩ : ∃ NB, bitLen (w + 1) (last - cur + 1) - 1 = NB := ⟨_, rfl⟩
    have hbl_succ : bitLen (w + 1) (last - cur + 1) = NB + 1 := by omega
    rw [hbl_succ, pow_succ] at hlen_ub
    rw [hnbe, hNB] at hnext ⊢
    have hgtN : NB < tzAux w cur := by omega
    have hdvd_succ : 2 ^ (NB + 1) ∣ cur :=
      dvd_trans (pow_dvd_pow 2 (by omega)) (pow_tzAux_dvd w cur)
    have hdvd_nb : 2 ^ NB ∣ cur + 2 ^ NB :=
      dvd_add (dvd_trans (pow_dvd_pow 2 (by omega)) hdvd_succ) dvd_rfl
    have hspos : 0 < 2 ^ NB := pow_pos (by omega) NB
    have hMp : 2 ^ (NB + 1) = 2 * 2 ^ NB := by rw [pow_succ]; ring
    have hnotdvd : ¬ 2 ^ (NB + 1) ∣ cur + 2 ^ NB := by
      intro hdd
      have h0c : cur % 2 ^ (NB + 1) = 0 := by
        obtain ⟨q, hq⟩ := hdvd_succ
        rw [hq]; exact Nat.mul_mod_right _ _
      have h0s : (cur + 2 ^ NB) % 2 ^ (NB + 1) = 0 := by
        obtain ⟨q, hq⟩ := hdd
        rw [hq]; exact Nat.mul_mod_right _ _
      have hadd := Nat.add_mod cur (2 ^ NB) (2 ^ (NB + 1))
      have hsm : 2 ^ NB % 2 ^ (NB + 1) = 2 ^ NB := Nat.mod_eq_of_lt (by omega)
      rw [h0c, hsm, zero_add, hsm] at hadd
      omega
    have hnble : NB ≤ w := by
      have := tzAux_le w cur
      omega
    have htz_eq : tzAux w (cur + 2 ^ NB) = NB :=
      tzAux_eq_of_dvd_not_dvd w _ _ hnble hdvd_nb hnotdvd
    right
    rw [htz_eq]
    omega

theorem summarize_min (w : Nat) : ∀ f : Nat, ∀ cur last base : Nat, ∀ L : List (Nat × Nat),
    last < 2 ^ w → cur ≤ last → base ≤ cur → last + 1 - cur ≤ f →
    GreedyInv w base cur last →
    (∀ a : Nat, cur ≤ a → a ≤ last → ∃ b ∈ L, blockMem w b a) →
    (∀ b ∈ L, validBlock w b ∧ base ≤ b.1 ∧ b.1 + 2 ^ (w - b.2) - 1 ≤ last) →
    (summarizeAux w f cur last).length ≤ L.length := by
  intro f
  induction f with
  | zero => intro cur last base L _ hfl _ hfuel _ _ _; omega
  | succ f ih =>
    intro cur last base L hlw hfl hbase hfuel hinv hcov hblk
    simp only [summarizeAux, if_pos hfl]
    obtain ⟨C, hCL, hCm⟩ := hcov cur le_rfl hfl
    obtain ⟨hCv, hCb, hCe⟩ := hblk C hCL
    obtain ⟨hCp, hCd⟩ := hCv
    obtain ⟨hm1, hm2⟩ := hCm
    obtain ⟨hceq, hsle⟩ := cover_block_start w base cur last C.1 C.2 hlw hfl hbase hinv
      hCp hCd hCb hCe hm1 hm2
    have hLpos : 0 < L.length := List.length_pos_of_mem hCL
    have hpos : 0 < 2 ^ pyNbits w cur last := pow_pos (by omega) _
    split
    · simp only [List.length_cons, List.length_nil]
      omega
    · rename_i hbreak
      by_cases hnext : cur + 2 ^ pyNbits w cur last ≤ last
      · have hinv2 := inv_step w base cur last hlw hfl hbase hinv hnext
        have hcov2 : ∀ a : Nat, cur + 2 ^ pyNbits w cur last ≤ a → a ≤ last →
            ∃ b ∈ L.erase C, blockMem w b a := by
          intro a ha1 ha2
          obtain ⟨b, hbL, hbm⟩ := hcov a (by omega) ha2
          have hbne : b ≠ C := by
            intro he
            subst he
            obtain ⟨hb1, hb2⟩ := hbm
            have hsp : 2 ^ (w - b.2) ≤ 2 ^ pyNbits w cur last :=
              Nat.pow_le_pow_right (by omega) hsle
            omega
          exact ⟨b, (List.mem_erase_of_ne hbne).mpr hbL, hbm⟩
        have hblk2 : ∀ b ∈ L.erase C, validBlock w b ∧ base ≤ b.1 ∧
            b.1 + 2 ^ (w - b.2) - 1 ≤ last :=
          fun b hb => hblk b (List.mem_of_mem_erase hb)
        have hlen2 := ih (cur + 2 ^ pyNbits w cur last) last base (L.erase C) hlw hnext
          (by omega) (by omega) hinv2 hcov2 hblk2
        have herase : (L.erase C).length = L.length - 1 := List.length_erase_of_mem hCL
        simp only [List.length_cons]
        omega
      · rw [summarizeAux_nil w f _ last (by omega)]
        simp only [List.length_cons, List.length_nil]
        omega

theorem addrAdd_ok (start count : Nat) (h1 : 1 ≤ count) (h2 : start + count ≤ 2 ^ 32) :
    addrAdd 32 start ((count : Int) - 1) = .ok (start + count - 1) := by
  unfold addrAdd
  have hp : (2 : Int) ^ 32 = 4294967296 := by norm_num
  have hpn : (2 : Nat) ^ 32 = 4294967296 := by norm_num
  rw [if_pos (by constructor <;> omega)]
  congr 1
  omega

theorem rangeBlocks_ok (start count : Nat) (h1 : 1 ≤ count) (h2 : start + count ≤ 2 ^ 32) :
    rangeBlocks 32 start (count : Int) =
      .ok (summarize_address_range 32 start (start + count - 1)) := by
  unfold rangeBlocks
  rw [addrAdd_ok start count h1 h2]
  show (if start + count - 1 < start then (Except.error () : Except Unit (List (Nat × Nat)))
    else .ok (summarize_address_range 32 start (start + count - 1))) =
    .ok (summarize_address_range 32 start (start + count - 1))
  rw [if_neg (by omega : ¬ start + count - 1 < start)]

theorem summarizeAux_step (w f first last : Nat) (hf : 0 < f) (hfl : first ≤ last) :
    summarizeAux w f first last =
      (first, w - pyNbits w first last) ::
        (if first + 2 ^ pyNbits w first last - 1 = 2 ^ w - 1 then []
         else summarizeAux w (f - 1) (first + 2 ^ pyNbits w first last) last) := by
  obtain ⟨g, rfl⟩ : ∃ g, f = g + 1 := ⟨f - 1, by omega⟩
  simp [summarizeAux, if_pos hfl]

theorem summarize_single (start k : Nat) (hk : 2 ^ k ∣ start) (hb : start + 2 ^ k ≤ 2 ^ 32) :
    summarize_address_range 32 start (start + 2 ^ k - 1) = [(start, 32 - k)] := by
  have hkpos : 0 < 2 ^ k := pow_pos (by omega) k
  have hk32 : k ≤ 32 := by
    by_contra hh
    have h1 : (2 : Nat) ^ 32 < 2 ^ k := Nat.pow_lt_pow_right (by omega) (by omega)
    omega
  unfold summarize_address_range
  have hfuel : start + 2 ^ k - 1 + 1 - start = 2 ^ k := by omega
  rw [hfuel]
  rw [summarizeAux_step 32 (2 ^ k) start (start + 2 ^ k - 1) hkpos (by omega)]
  have hnb : pyNbits 32 start (start + 2 ^ k - 1) = k := by
    unfold pyNbits
    have hlen : start + 2 ^ k - 1 - start + 1 = 2 ^ k := by omega
    rw [hlen, bitLen_two_pow 33 k (by omega), Nat.add_sub_cancel]
    exact min_eq_right (tzAux_ge_of_dvd 32 start k hk32 hk)
  rw [hnb]
  have htail : (if start + 2 ^ k - 1 = 2 ^ 32 - 1 then ([] : List (Nat × Nat))
      else summarizeAux 32 (2 ^ k - 1) (start + 2 ^ k) (start + 2 ^ k - 1)) = [] := by
    split
    · rfl
    · exact summarizeAux_nil 32 (2 ^ k - 1) _ _ (by omega)
  rw [htail]

/-- C1 counterexample: the claim quantifies over every parsed ipv4 record with
    count at least one, but when the range runs past the top of the address
    space the emission loop raises AddressValueError instead of producing a
    covering block sequence: the line below parses to a record with start
    255.255.255.255 and count 2, and the decomposition step errors. -/
theorem c1_overflow_counterexample :
    parse_record ("arin|US|ipv4|255.255.255.255|2|20230101|allocated") =
      .ok (some (PRecord.detail ⟨"arin", "US", "ipv4", AddrStart.v4 4294967295, 2,
        some ⟨2023, 1, 1⟩, "allocated", none⟩)) ∧
    rangeBlocks 32 4294967295 2 = .error () := ⟨rfl, rfl⟩

/-- C1 (amended with the in-space condition start + count ≤ 2^32 that the
    counterexample forces): for every IPv4 start and count ≥ 1 whose range
    stays inside the address space, the CIDR decomposition performed during
    emission succeeds and produces pairwise non-overlapping blocks whose
    union, as a set of integer addresses, is exactly [start, start+count-1]:
    no address outside the interval is covered and none inside is missed. -/
theorem c1_cidr_cover (start count : Nat) (h1 : 1 ≤ count) (h2 : start + count ≤ 2 ^ 32) :
    ∃ blocks : List (Nat × Nat),
      rangeBlocks 32 start (count : Int) = .ok blocks ∧
      List.Pairwise
        (fun b c : Nat × Nat => ∀ a : Nat, ¬ (blockMem 32 b a ∧ blockMem 32 c a)) blocks ∧
      (∀ a : Nat, (∃ b ∈ blocks, blockMem 32 b a) ↔ (start ≤ a ∧ a ≤ start + count - 1)) := by
  have hpn : (2 : Nat) ^ 32 = 4294967296 := by norm_num
  have hch := chainBlocks_summarizeAux 32 (start + count - 1 + 1 - start) start
    (start + count - 1) (by omega) (by omega) le_rfl
  refine ⟨summarize_address_range 32 start (start + count - 1),
    rangeBlocks_ok start count h1 h2, ?_, ?_⟩
  · have hpw := chainBlocks_pairwise 32 _ start (start + count - 1) hch
    refine hpw.imp ?_
    intro b c hbc a hac
    obtain ⟨⟨hb1, hb2⟩, hc1, hc2⟩ := hac
    omega
  · exact chainBlocks_mem_iff 32 _ start (start + count - 1) hch

/-- C1 witness at start 10.0.0.0 (167772160) and count 3. -/
theorem c1_cidr_cover_witness :
    ∃ blocks : List (Nat × Nat),
      rangeBlocks 32 167772160 ((3 : Nat) : Int) = .ok blocks ∧
      List.Pairwise
        (fun b c : Nat × Nat => ∀ a : Nat, ¬ (blockMem 32 b a ∧ blockMem 32 c a)) blocks ∧
      (∀ a : Nat, (∃ b ∈ blocks, blockMem 32 b a) ↔
        (167772160 ≤ a ∧ a ≤ 167772160 + 3 - 1)) :=
  c1_cidr_cover 167772160 3 (by omega) (by norm_num)

/-- C2 counterexample: the claim quantifies over every IPv4 starting address
    and count ≥ 1, but at start 255.255.255.254 and count 3 the range runs
    past the top of the address space and the decomposition step of the
    emission loop raises instead of producing any block sequence. -/
theorem c2_overflow_counterexample : rangeBlocks 32 4294967294 3 = .error () := rfl

/-- C2 (amended with the in-space condition start + count ≤ 2^32 that the
    counterexample forces): the decomposition has minimal length among all
    CIDR-block sequences whose union is exactly [start, start+count-1]; its
    blocks are emitted in strictly ascending address order; and when start is
    aligned to a power-of-two boundary and count is that exact power of two
    the result is the single block with the natural prefix length. -/
theorem c2_cidr_minimal (start count : Nat) (h1 : 1 ≤ count) (h2 : start + count ≤ 2 ^ 32) :
    ∃ blocks : List (Nat × Nat),
      rangeBlocks 32 start (count : Int) = .ok blocks ∧
      (∀ L : List (Nat × Nat), (∀ b ∈ L, validBlock 32 b) →
        (∀ a : Nat, (∃ b ∈ L, blockMem 32 b a) ↔ (start ≤ a ∧ a ≤ start + count - 1)) →
        blocks.length ≤ L.length) ∧
      List.Pairwise (fun b c : Nat × Nat => b.1 < c.1) blocks ∧
      (∀ k : Nat, count = 2 ^ k → 2 ^ k ∣ start → blocks = [(start, 32 - k)]) := by
  have hpn : (2 : Nat) ^ 32 = 4294967296 := by norm_num
  have hch := chainBlocks_summarizeAux 32 (start + count - 1 + 1 - start) start
    (start + count - 1) (by omega) (by omega) le_rfl
  refine ⟨summarize_address_range 32 start (start + count - 1),
    rangeBlocks_ok start count h1 h2, ?_, ?_, ?_⟩
  · intro L hv hcov
    have hblk : ∀ b ∈ L, validBlock 32 b ∧ start ≤ b.1 ∧
        b.1 + 2 ^ (32 - b.2) - 1 ≤ start + count - 1 := by
      intro b hb
      have hbpos : 0 < 2 ^ (32 - b.2) := pow_pos (by omega) _
      have hb1 : start ≤ b.1 ∧ b.1 ≤ start + count - 1 := by
        have := (hcov b.1).mp ⟨b, hb, by constructor <;> omega⟩
        omega
      have hb2 : start ≤ b.1 + 2 ^ (32 - b.2) - 1 ∧
          b.1 + 2 ^ (32 - b.2) - 1 ≤ start + count - 1 := by
        have := (hcov (b.1 + 2 ^ (32 - b.2) - 1)).mp ⟨b, hb, by constructor <;> omega⟩
        omega
      exact ⟨hv b hb, hb1.1, hb2.2⟩
    have hmin := summarize_min 32 (start + count - 1 + 1 - start) start (start + count - 1)
      start L (by omega) (by omega) le_rfl le_rfl (inv_init 32 start (start + count - 1))
      (fun a ha1 ha2 => (hcov a).mpr ⟨ha1, ha2⟩) hblk
    exact hmin
  · have hpw := chainBlocks_pairwise 32 _ start (start + count - 1) hch
    refine hpw.imp ?_
    intro b c hbc
    have hbpos : 0 < 2 ^ (32 - b.2) := pow_pos (by omega) _
    omega
  · intro k hcount hdvd
    subst hcount
    exact summarize_single start k hdvd h2

/-- C2 witness at start 192.168.0.0 (3232235520) and count 256 = 2 ^ 8. -/
theorem c2_cidr_minimal_witness :
    ∃ blocks : List (Nat × Nat),
      rangeBlocks 32 3232235520 ((256 : Nat) : Int) = .ok blocks ∧
      (∀ L : List (Nat × Nat), (∀ b ∈ L, validBlock 32 b) →
        (∀ a : Nat, (∃ b ∈ L, blockMem 32 b a) ↔
          (3232235520 ≤ a ∧ a ≤ 3232235520 + 256 - 1)) →
        blocks.length ≤ L.length) ∧
      List.Pairwise (fun b c : Nat × Nat => b.1 < c.1) blocks ∧
      (∀ k : Nat, 256 = 2 ^ k → 2 ^ k ∣ 3232235520 → blocks = [(3232235520, 32 - k)]) :=
  c2_cidr_minimal 3232235520 256 (by omega) (by norm_num)

/-- C3: the claim says parse_version_record fatally rejects every version
    outside [2.0, 3.0), in particular "1.9" and "3.0".  The code does not:
    its guard `3.0 <= version < 2.0` is a chained comparison that is never
    true, so only an unparsable (or zero) version field or a field count
    other than seven actually terminates the run.  This theorem evaluates
    the model at the failing inputs: seven-field rows with versions 3.0 and
    1.9 are accepted (contradicting the claim and the code's own comment and
    error message), while the parts of the claim about "2.3", a non-numeric
    version, and a wrong field count hold. -/
theorem c3_version_window_not_enforced :
    (parse_version_record ("3.0|ripencc|1|2|20230101|20230102|0")).isOk = true ∧
    (parse_version_record ("1.9|ripencc|1|2|20230101|20230102|0")).isOk = true ∧
    (parse_version_record ("2.3|ripencc|1|2|20230101|20230102|0")).isOk = true ∧
    (parse_version_record ("x.y|ripencc|1|2|20230101|20230102|0")).isOk = false ∧
    (parse_version_record ("2.3|ripencc|1|2|20230101|20230102")).isOk = false :=
  ⟨rfl, rfl, rfl, rfl, rfl⟩

/-- C10 (amended): the claimed totality ("never raises") is false of the
    source, because str.isdigit() accepts non-decimal Unicode digit
    characters while the int() slices sit outside the try block.  The codec
    raises an uncaught ValueError (Except.error) exactly on length-8 tokens
    that pass str.isdigit() but are not entirely decimal; on a valid decimal
    yyyymmdd token it returns the sliced calendar date; and it returns null
    exactly when the token is neither a valid date token nor a raising one
    (wrong length, a non-digit character, or an invalid calendar date).  The
    three documented examples are checked concretely. -/
theorem c10_date_codec :
    (∀ s : String, get_date_from_yyyymmdd s = .error () ↔
      (s.data.length = 8 ∧ (∀ c ∈ s.data, pyIsdigitChar c = true) ∧
        ¬ (∀ c ∈ s.data, c.isDigit = true))) ∧
    (∀ s : String, validDateToken s → get_date_from_yyyymmdd s = .ok (some (tokenDate s))) ∧
    (∀ s : String, get_date_from_yyyymmdd s = .ok none ↔
      (¬ validDateToken s ∧
        ¬ (s.data.length = 8 ∧ (∀ c ∈ s.data, pyIsdigitChar c = true) ∧
          ¬ (∀ c ∈ s.data, c.isDigit = true)))) ∧
    get_date_from_yyyymmdd ("20230115") = .ok (some ⟨2023, 1, 15⟩) ∧
    get_date_from_yyyymmdd ("2023011") = .ok none ∧
    get_date_from_yyyymmdd ("20231301") = .ok none := by
  have hpos : ∀ s : String, validDateToken s →
      get_date_from_yyyymmdd s = .ok (some (tokenDate s)) := by
    intro s hv
    obtain ⟨hlen, hdig, hok⟩ := hv
    unfold get_date_from_yyyymmdd
    have hisd : s.data.all pyIsdigitChar = true := List.all_eq_true.mpr (fun c hc => by
      unfold pyIsdigitChar
      rw [hdig c hc]
      rfl)
    rw [if_pos ⟨hlen, hisd⟩, if_pos (List.all_eq_true.mpr hdig)]
    simp only [hok, if_true]
    rfl
  have hraise : ∀ s : String, get_date_from_yyyymmdd s = .error () ↔
      (s.data.length = 8 ∧ (∀ c ∈ s.data, pyIsdigitChar c = true) ∧
        ¬ (∀ c ∈ s.data, c.isDigit = true)) := by
    intro s
    unfold get_date_from_yyyymmdd
    by_cases hc : s.data.length = 8 ∧ s.data.all pyIsdigitChar = true
    · rw [if_pos hc]
      by_cases hd : s.data.all Char.isDigit = true
      · rw [if_pos hd]
        constructor
        · intro h
          split at h <;> cases h
        · intro h
          exact absurd (List.all_eq_true.mp hd) h.2.2
      · rw [if_neg hd]
        constructor
        · intro h
          exact ⟨hc.1, List.all_eq_true.mp hc.2,
            fun hall => hd (List.all_eq_true.mpr hall)⟩
        · intro h
          rfl
    · rw [if_neg hc]
      constructor
      · intro h
        cases h
      · intro h
        exact absurd ⟨h.1, List.all_eq_true.mpr h.2.1⟩ hc
  refine ⟨hraise, hpos, ?_, rfl, rfl, rfl⟩
  intro s
  constructor
  · intro h
    refine ⟨fun hv => ?_, fun hr => ?_⟩
    · rw [hpos s hv] at h
      cases h
    · rw [(hraise s).mpr hr] at h
      cases h
  · intro h
    obtain ⟨hnv, hnr⟩ := h
    unfold get_date_from_yyyymmdd
    by_cases hc : s.data.length = 8 ∧ s.data.all pyIsdigitChar = true
    · rw [if_pos hc]
      by_cases hd : s.data.all Char.isDigit = true
      · rw [if_pos hd]
        have hbad : dateOKb (decDigits (s.data.take 4)) (decDigits ((s.data.drop 4).take 2))
            (decDigits (s.data.drop 6)) = false := by
          by_contra hh
          exact hnv ⟨hc.1, List.all_eq_true.mp hd, by
            cases hok : dateOKb (decDigits (s.data.take 4)) (decDigits ((s.data.drop 4).take 2))
              (decDigits (s.data.drop 6))
            · exact absurd hok hh
            · rfl⟩
        simp [hbad]
      · exact absurd ⟨hc.1, List.all_eq_true.mp hc.2,
          fun hall => hd (List.all_eq_true.mpr hall)⟩ hnr
    · rw [if_neg hc]

/-- C10 counterexample: the superscript character U+00B2 passes
    str.isdigit(), so this length-8 token reaches the unguarded int() slice
    and raises an uncaught ValueError (the run crashes); the claim said the
    codec never raises. -/
theorem c10_unicode_digit_counterexample :
    get_date_from_yyyymmdd ("²2345678") = .error () := rfl

/-- C7: the claim says ingestion returns, without raising, the list of
    trimmed lines with comment lines and blank lines discarded, for every
    raw text including ones containing blank or whitespace-only lines.  The
    code compares row[0] with the comment character before the blank-line
    length check, so a blank line raises an uncaught IndexError and the
    intended skip branch is unreachable: on a text with a blank line the
    model errors, while on a text without blank lines it returns the trimmed
    non-comment lines in their original order. -/
theorem c7_blank_line_raises :
    get_stats_list ("a|b|c\n\nd|e|f") = .error () ∧
    get_stats_list ("# comment\n  a|b  \nd") = .ok ["a|b", "d"] := ⟨rfl, rfl⟩

/-- C5: for every non-summary line with at least six pipe-delimited fields
    whose typed-field decode fails (bad integer for asn, bad IPv4 address or
    bad integer for ipv4, bad IPv6 address or bad integer for ipv6),
    parse_record logs the error and terminates the entire run (exit(1),
    modelled as Except.error) rather than skipping the line. -/
theorem c5_bad_detail_fatal (fields : List String)
    (hlen : 6 ≤ fields.length) (hns : fields.getD 5 ("") ≠ "summary")
    (hfail :
      (fields.getD 2 ("") = "asn" ∧
        (pyInt (fields.getD 3 ("")) = none ∨ pyInt (fields.getD 4 ("")) = none)) ∨
      (fields.getD 2 ("") = "ipv4" ∧
        (pyIPv4 (fields.getD 3 ("")) = none ∨ pyInt (fields.getD 4 ("")) = none)) ∨
      (fields.getD 2 ("") = "ipv6" ∧
        (pyIPv6 (fields.getD 3 ("")) = none ∨ pyInt (fields.getD 4 ("")) = none))) :
    parse_record_fields fields = .error () := by
  have htyped : parseTyped fields = .error () := by
    unfold parseTyped
    rcases hfail with ⟨ht, hf⟩ | ⟨ht, hf⟩ | ⟨ht, hf⟩
    · rw [if_pos ht]
      rcases hf with hf | hf
      · rw [hf]
      · rw [hf]
        cases h3 : pyInt (fields.getD 3 ("")) <;> rfl
    · rw [if_neg (by rw [ht]; decide), if_pos ht]
      rcases hf with hf | hf
      · rw [hf]
      · rw [hf]
        cases h3 : pyIPv4 (fields.getD 3 ("")) <;> rfl
    · rw [if_neg (by rw [ht]; decide), if_neg (by rw [ht]; decide), if_pos ht]
      rcases hf with hf | hf
      · rw [hf]
      · rw [hf]
        cases h3 : pyIPv6 (fields.getD 3 ("")) <;> rfl
  unfold parse_record_fields
  rw [if_neg (by omega : ¬ fields.length < 6), if_neg hns, htyped]

/-- C5 witness: a seven-field ipv4 line whose address field does not parse. -/
theorem c5_bad_detail_fatal_witness :
    parse_record_fields ["arin", "US", "ipv4", "banana", "256", "20230101", "allocated"] =
      .error () :=
  c5_bad_detail_fatal ["arin", "US", "ipv4", "banana", "256", "20230101", "allocated"]
    (by decide) (by decide) (Or.inr (Or.inl ⟨rfl, Or.inl rfl⟩))

/-- C6: a line with fewer than six pipe-delimited fields makes parse_record
    log a warning and return None without terminating the run, and inserting
    such a line anywhere after the version row changes neither the parsed
    detail-record list nor the emitted CSV. -/
theorem c6_short_line_skipped (row : String)
    (hlen : (pySplit '|' row).length < 6) :
    parse_record row = .ok none ∧
    (∀ first : String, ∀ pre post : List String,
      parse_stats_list (first :: (pre ++ row :: post)) =
        parse_stats_list (first :: (pre ++ post))) ∧
    (∀ first : String, ∀ pre post : List String,
      (parse_stats_list (first :: (pre ++ row :: post))).bind write_intermediate_stats_to_csv =
        (parse_stats_list (first :: (pre ++ post))).bind write_intermediate_stats_to_csv) := by
  have hrec : parse_record row = .ok none := by
    unfold parse_record parse_record_fields
    rw [if_pos hlen]
  have hdet : ∀ pre post : List String,
      parse_details (pre ++ row :: post) = parse_details (pre ++ post) := by
    intro pre post
    induction pre with
    | nil =>
      simp only [List.nil_append]
      simp only [parse_details]
      rw [hrec]
      cases hpd : parse_details post <;> rfl
    | cons x xs ih =>
      simp only [List.cons_append]
      simp only [parse_details]
      rw [ih]
  have hstats : ∀ first : String, ∀ pre post : List String,
      parse_stats_list (first :: (pre ++ row :: post)) =
        parse_stats_list (first :: (pre ++ post)) := by
    intro first pre post
    simp only [parse_stats_list]
    cases hv : parse_version_record first
    · rfl
    · exact hdet pre post
  exact ⟨hrec, hstats, fun first pre post => by rw [hstats first pre post]⟩

/-- C6 witness: the five-field example line from the specification. -/
theorem c6_short_line_skipped_witness :
    parse_record ("registry|cc|ipv4|10.0.0.0|256") = .ok none :=
  (c6_short_line_skipped ("registry|cc|ipv4|10.0.0.0|256") (by decide)).1

/-- C8 counterexample: the claim says every record returned non-null by
    parse_record satisfies the documented numeric ranges (ipv4 count at least
    one, ipv6 prefix within [0, 128]), but the parser performs no range
    validation: this ipv4 line with count 0 is returned as a record whose
    value field is 0. -/
theorem c8_range_counterexample :
    parse_record ("arin|US|ipv4|10.0.0.0|0|20230101|allocated") =
      .ok (some (PRecord.detail ⟨"arin", "US", "ipv4", AddrStart.v4 167772160, 0,
        some ⟨2023, 1, 1⟩, "allocated", none⟩)) := rfl

/-- C8 (amended): parse_record decodes the value field with int() and applies
    no range check at all, for both address families and for seven- and
    eight-field lines alike: for every non-summary line with at least seven
    fields whose discriminator is ipv4 (resp. ipv6), whose address field
    decodes, whose value token parses to any integer v (including 0, a
    negative number, or an ipv6 prefix outside [0, 128]), and whose date
    token does not raise, the returned record's value field is exactly v,
    with the opaque id present exactly when an eighth field is. -/
theorem c8_value_unchecked (fields : List String) (v : Int) (st : AddrStart)
    (d : Option PyDate)
    (hlen : 7 ≤ fields.length) (hns : fields.getD 5 ("") ≠ "summary")
    (hty :
      (fields.getD 2 ("") = "ipv4" ∧
        ∃ a : Nat, st = AddrStart.v4 a ∧ pyIPv4 (fields.getD 3 ("")) = some a) ∨
      (fields.getD 2 ("") = "ipv6" ∧
        ∃ a : Nat, st = AddrStart.v6 a ∧ pyIPv6 (fields.getD 3 ("")) = some a))
    (hval : pyInt (fields.getD 4 ("")) = some v)
    (hdate : get_date_from_yyyymmdd (fields.getD 5 ("")) = .ok d) :
    parse_record_fields fields =
      .ok (some (PRecord.detail ⟨fields.getD 0 (""), fields.getD 1 (""),
        fields.getD 2 (""), st, v, d, fields.getD 6 (""),
        if 8 ≤ fields.length then some (fields.getD 7 ("")) else none⟩)) := by
  rcases hty with ⟨ht, a, hsteq, hstart⟩ | ⟨ht, a, hsteq, hstart⟩
  · subst hsteq
    have htyped : parseTyped fields = .ok (some ("ipv4", AddrStart.v4 a, v)) := by
      unfold parseTyped
      rw [if_neg (by rw [ht]; decide), if_pos ht, hstart, hval, ht]
    rw [ht]
    unfold parse_record_fields
    rw [if_neg (by omega : ¬ fields.length < 6), if_neg hns, htyped, hdate]
    show (if 7 ≤ fields.length then
        (if ("ipv4" : String) = "ipv4" ∨ ("ipv4" : String) = "ipv6" then
          Except.ok (some (PRecord.detail
            ⟨fields.getD 0 (""), fields.getD 1 (""), "ipv4", AddrStart.v4 a, v,
             d, fields.getD 6 (""),
             if 8 ≤ fields.length then some (fields.getD 7 ("")) else none⟩))
        else Except.ok none)
      else Except.error ()) = _
    rw [if_pos hlen, if_pos (Or.inl rfl)]
  · subst hsteq
    have htyped : parseTyped fields = .ok (some ("ipv6", AddrStart.v6 a, v)) := by
      unfold parseTyped
      rw [if_neg (by rw [ht]; decide), if_neg (by rw [ht]; decide), if_pos ht, hstart, hval, ht]
    rw [ht]
    unfold parse_record_fields
    rw [if_neg (by omega : ¬ fields.length < 6), if_neg hns, htyped, hdate]
    show (if 7 ≤ fields.length then
        (if ("ipv6" : String) = "ipv4" ∨ ("ipv6" : String) = "ipv6" then
          Except.ok (some (PRecord.detail
            ⟨fields.getD 0 (""), fields.getD 1 (""), "ipv6", AddrStart.v6 a, v,
             d, fields.getD 6 (""),
             if 8 ≤ fields.length then some (fields.getD 7 ("")) else none⟩))
        else Except.ok none)
      else Except.error ()) = _
    rw [if_pos hlen, if_pos (Or.inr rfl)]

/-- C8 witness: an ipv4 line whose value token "0" decodes to 0 and an
    eight-field ipv6 line whose value token "500" (far outside [0, 128])
    decodes to 500; both pass through unchecked. -/
theorem c8_value_unchecked_witness :
    parse_record_fields ["arin", "US", "ipv4", "10.0.0.0", "0", "20230101", "allocated"] =
      .ok (some (PRecord.detail ⟨"arin", "US", "ipv4",
        AddrStart.v4 167772160, 0, some ⟨2023, 1, 1⟩, "allocated", none⟩)) ∧
    parse_record_fields
        ["ripencc", "NL", "ipv6", "::2", "500", "20230101", "assigned", "opq"] =
      .ok (some (PRecord.detail ⟨"ripencc", "NL", "ipv6",
        AddrStart.v6 2, 500, some ⟨2023, 1, 1⟩, "assigned", some ("opq")⟩)) :=
  ⟨c8_value_unchecked ["arin", "US", "ipv4", "10.0.0.0", "0", "20230101", "allocated"]
    0 (AddrStart.v4 167772160) (some ⟨2023, 1, 1⟩) (by decide) (by decide)
    (Or.inl ⟨rfl, 167772160, rfl, rfl⟩) rfl rfl,
   c8_value_unchecked ["ripencc", "NL", "ipv6", "::2", "500", "20230101", "assigned", "opq"]
    500 (AddrStart.v6 2) (some ⟨2023, 1, 1⟩) (by decide) (by decide)
    (Or.inr ⟨rfl, 2, rfl, rfl⟩) rfl rfl⟩

/-- C9 counterexample: the claim says a six-field detail line whose typed
    fields decode correctly is within the accepted format and does not
    terminate the run, but the code unconditionally reads fields[6] (the
    status field), so this fully well-typed six-field ipv4 line raises
    IndexError inside the detail try-block and the run exits. -/
theorem c9_six_field_counterexample :
    parse_record ("arin|US|ipv4|10.0.0.0|256|20230101") = .error () := rfl

/-- C9 (amended): a detail line needs at least seven pipe-delimited fields: a
    six-field non-summary line is fatal (the missing status field raises and
    every exception in the detail branch terminates the run), while for every
    non-summary line with at least seven fields whose discriminator is ipv4
    or ipv6, whose address and integer fields decode, and whose date token
    does not raise (a length-8 non-decimal isdigit() token in the date field
    is also fatal), parse_record returns a detail record and does not
    terminate the run. -/
theorem c9_detail_line_accepted (fields : List String) (d : Option PyDate)
    (hlen : 7 ≤ fields.length) (hns : fields.getD 5 ("") ≠ "summary")
    (hdate : get_date_from_yyyymmdd (fields.getD 5 ("")) = .ok d)
    (hok :
      (fields.getD 2 ("") = "ipv4" ∧ (∃ a : Nat, pyIPv4 (fields.getD 3 ("")) = some a) ∧
        (∃ v : Int, pyInt (fields.getD 4 ("")) = some v)) ∨
      (fields.getD 2 ("") = "ipv6" ∧ (∃ a : Nat, pyIPv6 (fields.getD 3 ("")) = some a) ∧
        (∃ v : Int, pyInt (fields.getD 4 ("")) = some v))) :
    ∃ r : DetailRecord, parse_record_fields fields = .ok (some (PRecord.detail r)) := by
  rcases hok with ⟨ht, ⟨a, hstart⟩, v, hval⟩ | ⟨ht, ⟨a, hstart⟩, v, hval⟩
  · have htyped : parseTyped fields = .ok (some ("ipv4", AddrStart.v4 a, v)) := by
      unfold parseTyped
      rw [if_neg (by rw [ht]; decide), if_pos ht, hstart, hval, ht]
    refine ⟨⟨fields.getD 0 (""), fields.getD 1 (""), "ipv4", AddrStart.v4 a, v,
      d, fields.getD 6 (""),
      if 8 ≤ fields.length then some (fields.getD 7 ("")) else none⟩, ?_⟩
    unfold parse_record_fields
    rw [if_neg (by omega : ¬ fields.length < 6), if_neg hns, htyped, hdate]
    show (if 7 ≤ fields.length then
        (if ("ipv4" : String) = "ipv4" ∨ ("ipv4" : String) = "ipv6" then
          Except.ok (some (PRecord.detail
            ⟨fields.getD 0 (""), fields.getD 1 (""), "ipv4", AddrStart.v4 a, v,
             d, fields.getD 6 (""),
             if 8 ≤ fields.length then some (fields.getD 7 ("")) else none⟩))
        else Except.ok none)
      else Except.error ()) = _
    rw [if_pos hlen, if_pos (Or.inl rfl)]
  · have htyped : parseTyped fields = .ok (some ("ipv6", AddrStart.v6 a, v)) := by
      unfold parseTyped
      rw [if_neg (by rw [ht]; decide), if_neg (by rw [ht]; decide), if_pos ht, hstart, hval, ht]
    refine ⟨⟨fields.getD 0 (""), fields.getD 1 (""), "ipv6", AddrStart.v6 a, v,
      d, fields.getD 6 (""),
      if 8 ≤ fields.length then some (fields.getD 7 ("")) else none⟩, ?_⟩
    unfold parse_record_fields
    rw [if_neg (by omega : ¬ fields.length < 6), if_neg hns, htyped, hdate]
    show (if 7 ≤ fields.length then
        (if ("ipv6" : String) = "ipv4" ∨ ("ipv6" : String) = "ipv6" then
          Except.ok (some (PRecord.detail
            ⟨fields.getD 0 (""), fields.getD 1 (""), "ipv6", AddrStart.v6 a, v,
             d, fields.getD 6 (""),
             if 8 ≤ fields.length then some (fields.getD 7 ("")) else none⟩))
        else Except.ok none)
      else Except.error ()) = _
    rw [if_pos hlen, if_pos (Or.inr rfl)]

/-- C9 witness: a well-typed seven-field ipv4 detail line is accepted. -/
theorem c9_detail_line_accepted_witness :
    ∃ r : DetailRecord,
      parse_record_fields ["arin", "US", "ipv4", "10.0.0.0", "256", "20230101", "allocated"] =
        .ok (some (PRecord.detail r)) :=
  c9_detail_line_accepted ["arin", "US", "ipv4", "10.0.0.0", "256", "20230101", "allocated"]
    (some ⟨2023, 1, 1⟩) (by decide) (by decide) rfl
    (Or.inl ⟨rfl, ⟨167772160, rfl⟩, ⟨256, rfl⟩⟩)

/-- C10 witness: the valid token of the specification example. -/
theorem c10_date_codec_witness :
    get_date_from_yyyymmdd ("20230115") = .ok (some (tokenDate ("20230115"))) :=
  c10_date_codec.2.1 ("20230115") ⟨by decide, by decide, by decide⟩

theorem mem_keyInsert {α : Type} (key : α → Nat) (x a : α) (l : List α) :
    a ∈ keyInsert key x l ↔ a = x ∨ a ∈ l := by
  induction l with
  | nil => simp [keyInsert]
  | cons y ys ih =>
    simp only [keyInsert]
    split
    · simp [List.mem_cons]
    · simp only [List.mem_cons, ih]
      tauto

theorem mem_keySort {α : Type} (key : α → Nat) (a : α) (l : List α) :
    a ∈ keySort key l ↔ a ∈ l := by
  induction l with
  | nil => simp [keySort]
  | cons x xs ih => simp [keySort, mem_keyInsert, ih]

theorem pairwise_keyInsert {α : Type} (key : α → Nat) (x : α) (l : List α)
    (h : List.Pairwise (fun a b => key a ≤ key b) l) :
    List.Pairwise (fun a b => key a ≤ key b) (keyInsert key x l) := by
  induction l with
  | nil => simp [keyInsert]
  | cons y ys ih =>
    obtain ⟨hy, hys⟩ := List.pairwise_cons.mp h
    simp only [keyInsert]
    split
    · rename_i hxy
      refine List.pairwise_cons.mpr ⟨?_, h⟩
      intro b hb
      rcases List.mem_cons.mp hb with rfl | hb
      · exact hxy
      · exact le_trans hxy (hy b hb)
    · rename_i hxy
      refine List.pairwise_cons.mpr ⟨?_, ih hys⟩
      intro b hb
      rcases (mem_keyInsert key x b ys).mp hb with rfl | hb
      · omega
      · exact hy b hb

theorem pairwise_keySort {α : Type} (key : α → Nat) (l : List α) :
    List.Pairwise (fun a b => key a ≤ key b) (keySort key l) := by
  induction l with
  | nil => exact List.Pairwise.nil
  | cons x xs ih => exact pairwise_keyInsert key x _ ih

theorem filter_keyInsert {α : Type} (key : α → Nat) (p : α → Bool) (x : α) (l : List α)
    (hkey : ∀ a b : α, p a = true → p b = true → key a = key b) :
    (keyInsert key x l).filter p = if p x then x :: l.filter p else l.filter p := by
  induction l with
  | nil =>
    simp only [keyInsert]
    cases hp : p x <;> simp [List.filter_cons, hp]
  | cons y ys ih =>
    simp only [keyInsert]
    split
    · rename_i hxy
      cases hp : p x <;> simp [List.filter_cons, hp]
    · rename_i hxy
      cases hp : p x
      · simp [List.filter_cons, ih, hp]
      · have hpy : p y = false := by
          cases hpy : p y
          · rfl
          · exfalso
            have := hkey x y hp hpy
            omega
        simp [List.filter_cons, ih, hp, hpy]

theorem filter_keySort {α : Type} (key : α → Nat) (p : α → Bool) (l : List α)
    (hkey : ∀ a b : α, p a = true → p b = true → key a = key b) :
    (keySort key l).filter p = l.filter p := by
  induction l with
  | nil => rfl
  | cons x xs ih =>
    simp only [keySort]
    rw [filter_keyInsert key p x _ hkey]
    cases hp : p x <;> simp [List.filter_cons, hp, ih]

theorem summarize_ne_nil (first last : Nat) (hfl : first ≤ last) :
    summarize_address_range 32 first last ≠ [] := by
  unfold summarize_address_range
  rw [summarizeAux_step 32 (last + 1 - first) first last (by omega) hfl]
  simp

theorem recordLines_wf (r : DetailRecord) (hwf : recWFb r = true) :
    ∃ ls : List String, recordLines r = .ok ls ∧ ls ≠ [] ∧
      ∀ s ∈ ls, ∃ rest : String, s = r.rtype ++ ("," ++ rest) := by
  cases hst : r.start with
  | v4 a =>
    have hwf2 : decide (r.rtype = "ipv4" ∧ 1 ≤ r.value ∧ ((a : Int) + r.value ≤ 2 ^ 32)) = true := by
      have h := hwf
      unfold recWFb at h
      rw [hst] at h
      exact h
    obtain ⟨hty, hv1, hv2⟩ := of_decide_eq_true hwf2
    obtain ⟨count, hcnt⟩ : ∃ count : Nat, r.value = (count : Int) :=
      ⟨r.value.toNat, (Int.toNat_of_nonneg (by omega)).symm⟩
    have h1n : 1 ≤ count := by omega
    have h2n : a + count ≤ 2 ^ 32 := by
      have hp : (2 : Int) ^ 32 = 4294967296 := by norm_num
      have hpn : (2 : Nat) ^ 32 = 4294967296 := by norm_num
      omega
    have hreq : recordLines r = .ok ((summarize_address_range 32 a (a + count - 1)).map
        (fun b : Nat × Nat => r.rtype ++ ("," ++ (v4AddrStr b.1 ++ ("/" ++
          (natStr b.2 ++ ("," ++ tailFields r))))))) := by
      unfold recordLines
      rw [if_pos hty, hst]
      show (match rangeBlocks 32 a r.value with
        | .error e => (Except.error e : Except Unit (List String))
        | .ok bs => .ok (bs.map (fun b : Nat × Nat =>
            r.rtype ++ ("," ++ (v4AddrStr b.1 ++ ("/" ++
              (natStr b.2 ++ ("," ++ tailFields r)))))))) =
        .ok ((summarize_address_range 32 a (a + count - 1)).map
          (fun b : Nat × Nat => r.rtype ++ ("," ++ (v4AddrStr b.1 ++ ("/" ++
            (natStr b.2 ++ ("," ++ tailFields r)))))))
      rw [hcnt, rangeBlocks_ok a count h1n h2n]
    refine ⟨(summarize_address_range 32 a (a + count - 1)).map
      (fun b : Nat × Nat => r.rtype ++ ("," ++ (v4AddrStr b.1 ++ ("/" ++
        (natStr b.2 ++ ("," ++ tailFields r)))))), hreq, ?_, ?_⟩
    · intro hnil
      rw [List.map_eq_nil] at hnil
      exact summarize_ne_nil a (a + count - 1) (by omega) hnil
    · intro s hs
      obtain ⟨b, hbm, hb⟩ := List.mem_map.mp hs
      refine ⟨v4AddrStr b.1 ++ ("/" ++ (natStr b.2 ++ ("," ++ tailFields r))), ?_⟩
      rw [← hb]
  | v6 a =>
    have hwf2 : decide (r.rtype = "ipv6") = true := by
      have h := hwf
      unfold recWFb at h
      rw [hst] at h
      exact h
    have hty : r.rtype = "ipv6" := of_decide_eq_true hwf2
    have hreq : recordLines r = .ok [r.rtype ++ ("," ++ (startStr r.start ++ ("/" ++
        (intStr r.value ++ ("," ++ tailFields r)))))] := by
      unfold recordLines
      rw [if_neg (by rw [hty]; decide), if_pos hty]
    refine ⟨_, hreq, by simp, ?_⟩
    intro s hs
    rcases List.mem_singleton.mp hs with rfl
    exact ⟨startStr r.start ++ ("/" ++ (intStr r.value ++ ("," ++ tailFields r))), rfl⟩
  | asnum n =>
    exfalso
    have h : recWFb r = false := by
      unfold recWFb
      rw [hst]
    rw [h] at hwf
    cases hwf

theorem emitLines_wf (rs : List DetailRecord)
    (h : ∀ r ∈ rs, ∃ ls : List String, recordLines r = .ok ls ∧ ls ≠ [] ∧
      ∀ s ∈ ls, ∃ rest : String, s = r.rtype ++ ("," ++ rest)) :
    ∃ liness : List (List String), emitLines rs = .ok liness.join ∧
      List.Forall₂ (fun r ls => ls ≠ [] ∧
        ∀ s ∈ ls, ∃ rest : String, s = r.rtype ++ ("," ++ rest)) rs liness := by
  induction rs with
  | nil => exact ⟨[], rfl, List.Forall₂.nil⟩
  | cons r rs ih =>
    obtain ⟨ls, hls, hne, hpr⟩ := h r (List.mem_cons_self r rs)
    obtain ⟨liness, hjoin, hall⟩ := ih (fun x hx => h x (List.mem_cons_of_mem _ hx))
    refine ⟨ls :: liness, ?_, List.Forall₂.cons ⟨hne, hpr⟩ hall⟩
    simp only [emitLines]
    rw [hls, hjoin]
    rfl

theorem isV4b_not_isV6b (r : DetailRecord) (h : isV6b r = true) : isV4b r = false := by
  obtain ⟨reg, cc, ty, st, v, d, stat, o⟩ := r
  cases st <;> simp_all [isV4b, isV6b]

theorem isV6b_not_isV4b (r : DetailRecord) (h : isV4b r = true) : isV6b r = false := by
  obtain ⟨reg, cc, ty, st, v, d, stat, o⟩ := r
  cases st <;> simp_all [isV4b, isV6b]

/-- C4: under the record well-formedness that parsing establishes for the
    aggregator (type discriminator matching the dynamic start type, and
    emittable ipv4 ranges), the emitted CSV starts with the exact header row,
    each record in emission order contributes a nonempty block of rows each
    tagged with its family, the emission order places every IPv4-family
    record before every IPv6-family record with numeric starting addresses
    nondecreasing within each family, and records of equal starting address
    keep their original aggregation order (stability of the sort). -/
theorem c4_sorted_emission (ranges : List DetailRecord)
    (hwf : ∀ r ∈ ranges, recWFb r = true) :
    ∃ liness : List (List String),
      write_intermediate_stats_to_csv ranges =
        .ok (("type,subnet,registry,country,date,status,reg_id") :: liness.join) ∧
      List.Forall₂ (fun r ls => ls ≠ [] ∧
        ∀ s ∈ ls, ∃ rest : String, s = r.rtype ++ ("," ++ rest)) (emitOrder ranges) liness ∧
      List.Pairwise famOrder (emitOrder ranges) ∧
      (∀ k : Nat, (emitOrder ranges).filter (fun r => isV4b r && (startKey r == k)) =
        ranges.filter (fun r => isV4b r && (startKey r == k))) ∧
      (∀ k : Nat, (emitOrder ranges).filter (fun r => isV6b r && (startKey r == k)) =
        ranges.filter (fun r => isV6b r && (startKey r == k))) := by
  have hmemA : ∀ r ∈ keySort startKey (ranges.filter isV4b), isV4b r = true ∧ r ∈ ranges := by
    intro r hr
    have h1 := (mem_keySort startKey r _).mp hr
    have h2 := List.mem_filter.mp h1
    exact ⟨h2.2, h2.1⟩
  have hmemB : ∀ r ∈ keySort startKey (ranges.filter isV6b), isV6b r = true ∧ r ∈ ranges := by
    intro r hr
    have h1 := (mem_keySort startKey r _).mp hr
    have h2 := List.mem_filter.mp h1
    exact ⟨h2.2, h2.1⟩
  have hmemE : ∀ r ∈ emitOrder ranges, r ∈ ranges := by
    intro r hr
    rcases List.mem_append.mp hr with h | h
    · exact (hmemA r h).2
    · exact (hmemB r h).2
  obtain ⟨liness, hemit, hfa⟩ := emitLines_wf (emitOrder ranges)
    (fun r hr => recordLines_wf r (hwf r (hmemE r hr)))
  refine ⟨liness, ?_, hfa, ?_, ?_, ?_⟩
  · unfold write_intermediate_stats_to_csv
    rw [hemit]
    rfl
  · unfold emitOrder
    refine List.pairwise_append.mpr ⟨?_, ?_, ?_⟩
    · refine List.Pairwise.imp_of_mem ?_ (pairwise_keySort startKey (ranges.filter isV4b))
      intro a b ha hb hab
      exact Or.inr (Or.inl ⟨(hmemA a ha).1, (hmemA b hb).1, hab⟩)
    · refine List.Pairwise.imp_of_mem ?_ (pairwise_keySort startKey (ranges.filter isV6b))
      intro a b ha hb hab
      exact Or.inr (Or.inr ⟨(hmemB a ha).1, (hmemB b hb).1, hab⟩)
    · intro a ha b hb
      exact Or.inl ⟨(hmemA a ha).1, (hmemB b hb).1⟩
  · intro k
    unfold emitOrder
    rw [List.filter_append]
    have hB : (keySort startKey (ranges.filter isV6b)).filter
        (fun r => isV4b r && (startKey r == k)) = [] := by
      rw [List.filter_eq_nil]
      intro r hr
      simp [isV4b_not_isV6b r (hmemB r hr).1]
    rw [hB, List.append_nil]
    rw [filter_keySort startKey (fun r => isV4b r && (startKey r == k)) (ranges.filter isV4b)
      (fun x y hx hy => by
        simp only [Bool.and_eq_true, beq_iff_eq] at hx hy
        omega)]
    rw [List.filter_filter]
    apply List.filter_congr
    intro r hr
    cases h4 : isV4b r <;> simp [h4]
  · intro k
    unfold emitOrder
    rw [List.filter_append]
    have hA : (keySort startKey (ranges.filter isV4b)).filter
        (fun r => isV6b r && (startKey r == k)) = [] := by
      rw [List.filter_eq_nil]
      intro r hr
      simp [isV6b_not_isV4b r (hmemA r hr).1]
    rw [hA, List.nil_append]
    rw [filter_keySort startKey (fun r => isV6b r && (startKey r == k)) (ranges.filter isV6b)
      (fun x y hx hy => by
        simp only [Bool.and_eq_true, beq_iff_eq] at hx hy
        omega)]
    rw [List.filter_filter]
    apply List.filter_congr
    intro r hr
    cases h6 : isV6b r <;> simp [h6]


/-- C4 witness at a two-record aggregation, one IPv6 record and one IPv4
    record. -/
theorem c4_sorted_emission_witness :
    ∃ liness : List (List String),
      write_intermediate_stats_to_csv
          [⟨"ripencc", "NL", "ipv6", AddrStart.v6 1, 32, none, "assigned", none⟩,
       ⟨"arin", "US", "ipv4", AddrStart.v4 167772160, 4, some ⟨2023, 1, 15⟩, "allocated",
        some ("oid")⟩] =
        .ok (("type,subnet,registry,country,date,status,reg_id") :: liness.join) ∧
      List.Forall₂ (fun r ls => ls ≠ [] ∧
        ∀ s ∈ ls, ∃ rest : String, s = r.rtype ++ ("," ++ rest))
        (emitOrder
          [⟨"ripencc", "NL", "ipv6", AddrStart.v6 1, 32, none, "assigned", none⟩,
       ⟨"arin", "US", "ipv4", AddrStart.v4 167772160, 4, some ⟨2023, 1, 15⟩, "allocated",
        some ("oid")⟩]) liness ∧
      List.Pairwise famOrder (emitOrder
          [⟨"ripencc", "NL", "ipv6", AddrStart.v6 1, 32, none, "assigned", none⟩,
       ⟨"arin", "US", "ipv4", AddrStart.v4 167772160, 4, some ⟨2023, 1, 15⟩, "allocated",
        some ("oid")⟩]) ∧
      (∀ k : Nat, (emitOrder
          [⟨"ripencc", "NL", "ipv6", AddrStart.v6 1, 32, none, "assigned", none⟩,
       ⟨"arin", "US", "ipv4", AddrStart.v4 167772160, 4, some ⟨2023, 1, 15⟩, "allocated",
        some ("oid")⟩]).filter (fun r => isV4b r && (startKey r == k)) =
        List.filter (fun r => isV4b r && (startKey r == k))
          [⟨"ripencc", "NL", "ipv6", AddrStart.v6 1, 32, none, "assigned", none⟩,
       ⟨"arin", "US", "ipv4", AddrStart.v4 167772160, 4, some ⟨2023, 1, 15⟩, "allocated",
        some ("oid")⟩]) ∧
      (∀ k : Nat, (emitOrder
          [⟨"ripencc", "NL", "ipv6", AddrStart.v6 1, 32, none, "assigned", none⟩,
       ⟨"arin", "US", "ipv4", AddrStart.v4 167772160, 4, some ⟨2023, 1, 15⟩, "allocated",
        some ("oid")⟩]).filter (fun r => isV6b r && (startKey r == k)) =
        List.filter (fun r => isV6b r && (startKey r == k))
          [⟨"ripencc", "NL", "ipv6", AddrStart.v6 1, 32, none, "assigned", none⟩,
       ⟨"arin", "US", "ipv4", AddrStart.v4 167772160, 4, some ⟨2023, 1, 15⟩, "allocated",
        some ("oid")⟩]) :=
  c4_sorted_emission
    [⟨"ripencc", "NL", "ipv6", AddrStart.v6 1, 32, none, "assigned", none⟩,
       ⟨"arin", "US", "ipv4", AddrStart.v4 167772160, 4, some ⟨2023, 1, 15⟩, "allocated",
        some ("oid")⟩] (by decide)
